import Mathlib

/-!
Verification development for the gen-linkml-profile schema-transformation
toolkit.  The Python sources (`schema_profiler.py`, `__main__.py`) are
shallowly embedded below: LinkML schemas become association-list records,
the recursive profiler, the data-product flattener, the instance walker and
the shortest-path graph are embedded as executable Lean functions.  Python
exceptions are modelled with `Except`/explicit result inductives, and the
(possibly diverging) recursive walkers take an explicit fuel argument, with
fuel exhaustion as a distinguished outcome.
-/

namespace GLP

/-- Association-list lookup keyed by strings: the embedding of Python
dict lookups (`d.get(k)` / `d[k]`). -/
def lookup1 {α : Type} (l : List (String × α)) (k : String) : Option α :=
  match l.find? (fun p => p.1 == k) with
  | some p => some p.2
  | none => none

/-- Key membership of an association list (`k in d`). -/
def hasKey {α : Type} (l : List (String × α)) (k : String) : Bool :=
  (lookup1 l k).isSome

/-- In-place update of the value stored at a key (`d[k] = v` when `k` is
already present); entries with other keys are untouched, order preserved. -/
def setVal {α : Type} : List (String × α) → String → α → List (String × α)
  | [], _, _ => []
  | p :: l, k, v => (if p.1 == k then (k, v) else p) :: setVal l k v

/-- `d[k] = v` on a Python dict: overwrite in place if the key exists,
otherwise append at the end (dicts preserve insertion order). -/
def setOrAppend {α : Type} (l : List (String × α)) (k : String) (v : α) :
    List (String × α) :=
  if hasKey l k then setVal l k v else l ++ [(k, v)]

/-- SlotDefinition: the slot/attribute fields the toolkit reads.
`range`, `slot_uri` are optional exactly because the Python attributes
may be `None`. -/
structure SlotDef where
  name : String
  range : Option String
  required : Bool
  multivalued : Bool
  identifier : Bool
  inlined : Bool
  slot_uri : Option String
deriving DecidableEq, Repr

/-- ClassDefinition: name, single-inheritance parent, ordered attribute map. -/
structure ClassDef where
  name : String
  is_a : Option String
  attributes : List (String × SlotDef)
deriving DecidableEq, Repr

/-- TypeDefinition: name and the optional `typeof` alias. -/
structure TypeDef where
  name : String
  typeof : Option String
deriving DecidableEq, Repr

/-- EnumDefinition: name and the ordered permissible-value names. -/
structure EnumDef where
  name : String
  permissible_values : List String
deriving DecidableEq, Repr

/-- SchemaDefinition: the categories the toolkit traverses, plus the
id/version metadata read by the instance walker.  URI-namespace metadata
and imports are carried along verbatim by the code and never influence
the claims, so they are omitted from the embedding. -/
structure Schema where
  id : String
  version : String
  classes : List (String × ClassDef)
  slots : List (String × SlotDef)
  types : List (String × TypeDef)
  enums : List (String × EnumDef)
deriving DecidableEq, Repr

/-- The tagged result of `SchemaView.get_element`. -/
inductive Element where
  | cls (c : ClassDef)
  | slt (s : SlotDef)
  | typ (t : TypeDef)
  | enm (e : EnumDef)
deriving DecidableEq, Repr

/-- `SchemaView.get_element`: polymorphic lookup trying classes, then
slots, then types, then enums. -/
def Schema.getElement (sch : Schema) (n : String) : Option Element :=
  match lookup1 sch.classes n with
  | some c => some (Element.cls c)
  | none =>
    match lookup1 sch.slots n with
    | some s => some (Element.slt s)
    | none =>
      match lookup1 sch.types n with
      | some t => some (Element.typ t)
      | none =>
        match lookup1 sch.enums n with
        | some e => some (Element.enm e)
        | none => none

/-- Replace the class stored under key `k` (no-op if the key is absent):
the embedding of mutating a class object held in `schema.classes`. -/
def Schema.setClassDef (sch : Schema) (k : String) (c : ClassDef) : Schema :=
  { sch with classes := setVal sch.classes k c }

/-- Worker for `SchemaView.class_ancestors`: walk the `is_a` chain,
accumulating each class once (the visited check mirrors the closure's
seen-set, so cyclic `is_a` chains terminate), and fail with the embedded
ValueError as soon as a name on the chain is not a class.  The fuel is
always called with `classes.length + 1`, which a chain of distinct
existing classes can never exhaust. -/
def ancWalk (view : Schema) : Nat → List String → Option String →
    Except Unit (List String)
  | _, acc, none => Except.ok acc
  | 0, acc, some _ => Except.ok acc
  | fuel+1, acc, some p =>
    if acc.contains p then Except.ok acc
    else
      match lookup1 view.classes p with
      | none => Except.error ()
      | some c => ancWalk view fuel (acc ++ [p]) c.is_a

/-- `SchemaView.class_ancestors(n)`: reflexive ancestor list `[n, parent,
grandparent, …]`; raises (models ValueError) when `n` or any ancestor on
the chain is not a class of the schema. -/
def classAncestors (view : Schema) (n : String) : Except Unit (List String) :=
  ancWalk view (view.classes.length + 1) [] (some n)

/-- Append the elements of `xs` that are not already present (the
`if a_name in self.c_names: continue` dedup in `SchemaProfiler.__init__`). -/
def addNew (acc : List String) (xs : List String) : List String :=
  xs.foldl (fun a x => if a.contains x then a else a ++ [x]) acc

/-- `SchemaProfiler.__init__`'s computation of `self.c_names`: for each
root, add its ancestor closure; a root whose ancestor query raises is
logged and skipped. -/
def computeCNames (view : Schema) (roots : List String) : List String :=
  roots.foldl
    (fun acc r =>
      match classAncestors view r with
      | Except.error _ => acc
      | Except.ok as => addNew acc as)
    []

/-- The ProfilingSchemaBuilder's accumulated output schema: classes, types
and enums keyed by name (the profiler never adds standalone slots). -/
structure Builder where
  classes : List (String × ClassDef)
  types : List (String × TypeDef)
  enums : List (String × EnumDef)
deriving DecidableEq, Repr

def Builder.empty : Builder := ⟨[], [], []⟩

def Builder.hasClass (b : Builder) (n : String) : Bool := hasKey b.classes n
def Builder.hasType (b : Builder) (n : String) : Bool := hasKey b.types n
def Builder.hasEnum (b : Builder) (n : String) : Bool := hasKey b.enums n

/-- `builder.add_class` (keyed by the class's own name). -/
def Builder.addClass (b : Builder) (c : ClassDef) : Builder :=
  { b with classes := setOrAppend b.classes c.name c }

def Builder.addType (b : Builder) (t : TypeDef) : Builder :=
  { b with types := setOrAppend b.types t.name t }

def Builder.addEnum (b : Builder) (e : EnumDef) : Builder :=
  { b with enums := setOrAppend b.enums e.name e }

/-- Replace the class stored in the builder under key `k`: the aliasing
effect of `elem['attributes'] = attr` on the object previously passed to
`builder.add_class`. -/
def Builder.setClassDef (b : Builder) (k : String) (c : ClassDef) : Builder :=
  { b with classes := setVal b.classes k c }

/-- The attribute-filtering loop of `SchemaProfiler._profile` (lines
128-141): iterate the class's attributes in order; raise the embedded
ValueError at the first range that is not a schema element (including a
`None` range, since `get_element(None)` is `None`); silently drop any
attribute whose range is a class not in `c_names`; keep the rest. -/
def filterAttrs (view : Schema) (cNames : List String) :
    List (String × SlotDef) → Except Unit (List (String × SlotDef))
  | [] => Except.ok []
  | (n, sd) :: rest =>
    match sd.range with
    | none => Except.error ()
    | some rn =>
      match view.getElement rn with
      | none => Except.error ()
      | some _ =>
        if hasKey view.classes rn && !(cNames.contains rn) then
          filterAttrs view cNames rest
        else
          match filterAttrs view cNames rest with
          | Except.error u => Except.error u
          | Except.ok l => Except.ok ((n, sd) :: l)

/-- The mutable state threaded through a profiling run: `self.schema`
(mutated in place by `elem['attributes'] = attr`) and the builder. -/
structure PState where
  sch : Schema
  b : Builder
deriving DecidableEq, Repr

/-- Result of one `_profile` call: normal return, a ValueError propagating
upward (carrying the mutations already performed), or fuel exhaustion
(which the Python function, having no fuel, can never signal — it is the
embedding's marker for non-termination / unbounded recursion). -/
inductive PRes where
  | ok (st : PState)
  | raised (st : PState)
  | nofuel
deriving DecidableEq, Repr

/-- `SchemaProfiler._profile(name, builder)`.  The `view` is the deep copy
taken in `__init__` and is never mutated; `st.sch` is `self.schema`.  For a
class: return if the builder already has it; fetch the class object from
`self.schema` (always present, since the view is a copy of the schema —
`getD` supplies the view's copy in the unreachable case); add it to the
builder; filter its attributes, raising on a dangling range with the class
left in the builder carrying its original attributes; on success overwrite
the attribute mapping both in the schema and in the builder (one aliased
object in Python), then recurse into each kept attribute's range.  Types
and enums are added verbatim; slots are ignored. -/
def profileGo (view : Schema) (cNames : List String) :
    Nat → PState → String → PRes
  | 0, _, _ => PRes.nofuel
  | fuel+1, st, name =>
    match view.getElement name with
    | none => PRes.ok st
    | some (Element.slt _) => PRes.ok st
    | some (Element.typ t) =>
      if st.b.hasType t.name then PRes.ok st
      else PRes.ok { st with b := st.b.addType t }
    | some (Element.enm e) =>
      if st.b.hasEnum e.name then PRes.ok st
      else PRes.ok { st with b := st.b.addEnum e }
    | some (Element.cls cV) =>
      if st.b.hasClass cV.name then PRes.ok st
      else
        let elem := (lookup1 st.sch.classes cV.name).getD cV
        let b1 := st.b.addClass elem
        match filterAttrs view cNames elem.attributes with
        | Except.error _ => PRes.raised { sch := st.sch, b := b1 }
        | Except.ok attr =>
          let elem2 := { elem with attributes := attr }
          let st2 : PState :=
            { sch := st.sch.setClassDef elem.name elem2,
              b := b1.setClassDef elem.name elem2 }
          attr.foldl
            (fun acc p =>
              match acc with
              | PRes.ok st' =>
                match p.2.range with
                | none => PRes.ok st'
                | some rn => profileGo view cNames fuel st' rn
              | other => other)
            (PRes.ok st2)

/-- The loop body of the recursion over kept attributes, named so that
proofs can speak about the anonymous fold step inside `profileGo`. -/
def profStep (view : Schema) (cNames : List String) (fuel : Nat)
    (acc : PRes) (p : String × SlotDef) : PRes :=
  match acc with
  | PRes.ok st' =>
    match p.2.range with
    | none => PRes.ok st'
    | some rn => profileGo view cNames fuel st' rn
  | other => other

/-- `SchemaProfiler.profile`'s loop over `self.c_names`: each root is
profiled; a ValueError is caught and logged, and the loop continues with
the state reached at the raise. -/
def profileRoots (view : Schema) (cNames : List String) (fuel : Nat) :
    List String → PState → Option PState
  | [], st => some st
  | c :: rest, st =>
    match profileGo view cNames fuel st c with
    | PRes.ok st' => profileRoots view cNames fuel rest st'
    | PRes.raised st' => profileRoots view cNames fuel rest st'
    | PRes.nofuel => none

/-- Strict variant used to state the no-abort hypothesis of the closure
theorem: identical to `profileRoots` except that a propagated ValueError
(or fuel exhaustion) makes the whole run fail instead of being caught, so
a `some` result certifies that no traversal branch aborted. -/
def profileRootsStrict (view : Schema) (cNames : List String) (fuel : Nat) :
    List String → PState → Option PState
  | [], st => some st
  | c :: rest, st =>
    match profileGo view cNames fuel st c with
    | PRes.ok st' => profileRootsStrict view cNames fuel rest st'
    | _ => none

/-- The profiler object after `__init__`: the loaded schema, the deep-copied
view (equal as a value, but never mutated afterwards), and `c_names`. -/
structure Profiler where
  sch : Schema
  view : Schema
  cNames : List String
deriving DecidableEq, Repr

/-- `SchemaProfiler.__init__(yamlfile, c_names)`. -/
def Profiler.init (loaded : Schema) (roots : List String) : Profiler :=
  { sch := loaded, view := loaded, cNames := computeCNames loaded roots }

/-- `SchemaProfiler.profile()`: run the traversal from every kept name over
a fresh builder; returns the profiler (whose `self.schema` may have been
mutated) together with the builder contents. -/
def Profiler.profile (p : Profiler) (fuel : Nat) :
    Option (Profiler × Builder) :=
  match profileRoots p.view p.cNames fuel p.cNames ⟨p.sch, Builder.empty⟩ with
  | some st => some ({ p with sch := st.sch }, st.b)
  | none => none

/-! ### Query-facade models

`class_induced_slots` / `induced_class` / `get_identifier_slot` /
`is_inlined` live in the external linkml-runtime SchemaView; the spec
scopes them out as the Query Facade.  They are modelled here following the
facade contract: induced attributes are collected along the reflexive
ancestor chain, first declaration (nearest ancestor) wins. -/

/-- Keep the first occurrence of each name (insertion-ordered dedup). -/
def dedupKeep (l : List String) : List String :=
  l.foldl (fun acc x => if acc.contains x then acc else acc ++ [x]) []

/-- Structural companion of `dedupKeep`: the elements of `l` not in `seen`,
first occurrences only, in order (used to reason about the fold). -/
def dedupFrom (seen : List String) : List String → List String
  | [] => []
  | x :: xs =>
    if seen.contains x then dedupFrom seen xs
    else x :: dedupFrom (seen ++ [x]) xs

/-- The induced attribute names of a class, given its reflexive ancestor
chain: the class's own attribute names first, then each ancestor's new
names, deduplicated keeping the first occurrence. -/
def inducedNames (sv : Schema) (ancs : List String) : List String :=
  dedupKeep (ancs.flatMap (fun a =>
    match lookup1 sv.classes a with
    | some c => c.attributes.map (fun p => p.1)
    | none => []))

/-- The induced definition of attribute `n`: the declaration found on the
nearest class of the ancestor chain. -/
def inducedDef (sv : Schema) (ancs : List String) (n : String) :
    Option SlotDef :=
  ancs.findSome? (fun a =>
    match lookup1 sv.classes a with
    | some c => lookup1 c.attributes n
    | none => none)

/-- `SchemaView.class_induced_slots(cn)`: the full induced attribute list
of a class (inherited plus local), empty when the ancestor query fails
(in which case every caller in the sources has already raised). -/
def inducedSlots (sv : Schema) (cn : String) : List SlotDef :=
  match classAncestors sv cn with
  | Except.error _ => []
  | Except.ok ancs =>
    (inducedNames sv ancs).filterMap (inducedDef sv ancs)

/-- `SchemaView.get_identifier_slot(r)`: raises (ValueError) when `r` is
not a class or its ancestor chain is broken; otherwise the first induced
slot carrying the identifier flag, if any. -/
def getIdentifierSlotE (sv : Schema) (r : String) :
    Except Unit (Option SlotDef) :=
  match classAncestors sv r with
  | Except.error _ => Except.error ()
  | Except.ok ancs =>
    Except.ok (((inducedNames sv ancs).filterMap (inducedDef sv ancs)).find?
      (fun s => s.identifier))

/-- `SchemaView.is_inlined(slot)`: a class-valued slot is inlined when it
asks for inlining explicitly or when its range class has no identifier
slot; non-class ranges are never inlined. -/
def isInlined (view : Schema) (sd : SlotDef) : Bool :=
  match sd.range with
  | none => false
  | some rn =>
    match lookup1 view.classes rn with
    | none => false
    | some _ =>
      sd.inlined ||
        (match getIdentifierSlotE view rn with
         | Except.ok (some _) => false
         | _ => true)

/-! ### Data-product flattener (`__main__.py`) -/

/-- `SchemaView.delete_class(cn)` with its default `delete_references`:
remove the class and clear the `is_a` of every child that pointed at it.
(External facade; single inheritance only, mixins are not modelled.) -/
def deleteClass (sv : Schema) (cn : String) : Schema :=
  { sv with classes :=
      (sv.classes.filter (fun p => !(p.1 == cn))).map (fun p =>
        if p.2.is_a == some cn then (p.1, { p.2 with is_a := none }) else p) }

/-- `ProfilingLinkmlGenerator.clean(found)`: delete every class, enum and
type whose name is not in `found` (iterating over a snapshot of the
original key lists, as the Python loops do). -/
def clean (sv : Schema) (found : List String) : Schema :=
  let afterClasses :=
    (sv.classes.map (fun p => p.1)).foldl
      (fun s k => if found.contains k then s else deleteClass s k) sv
  { afterClasses with
    enums := afterClasses.enums.filter (fun p => found.contains p.1),
    types := afterClasses.types.filter (fun p => found.contains p.1) }

/-- One iteration of the identifier-rewriting loop of `_data_product`: for
the attribute named `n` of class `cn`, if its range has an identifier slot,
overwrite the range with that identifier slot's range;
`get_identifier_slot` raising (non-class range) or returning `None` leaves
the attribute unchanged.  The schema is threaded because the Python loop
mutates the slot objects in place one by one. -/
def dpStep (cn : String) (s : Schema) (n : String) : Schema :=
  match lookup1 s.classes cn with
  | none => s
  | some cd =>
    match lookup1 cd.attributes n with
    | none => s
    | some sd =>
      match sd.range with
      | none => s
      | some r =>
        match getIdentifierSlotE s r with
        | Except.error _ => s
        | Except.ok none => s
        | Except.ok (some ids) =>
          s.setClassDef cn
            { cd with attributes :=
                setVal cd.attributes n { sd with range := ids.range } }

/-- The identifier-rewriting loop of `_data_product` (second `for` over a
snapshot of the merged attribute names). -/
def dpRewriteGo (cn : String) (names : List String) (sv : Schema) : Schema :=
  names.foldl (dpStep cn) sv

/-- `ProfilingLinkmlGenerator._data_product(class_name)`: merge the induced
slots into the class's attribute mapping (existing names overwritten in
place, new names appended), then run the identifier-rewriting loop. -/
def dataProductTransform (sv : Schema) (cn : String) : Schema :=
  match lookup1 sv.classes cn with
  | none => sv
  | some cdef =>
    let induced := inducedSlots sv cn
    let merged := induced.foldl (fun as s => setOrAppend as s.name s)
      cdef.attributes
    let svM := sv.setClassDef cn { cdef with attributes := merged }
    dpRewriteGo cn (merged.map (fun p => p.1)) svM

/-- `profile(class_names, data_product=True)` in `__main__.py` for a single
class name: `class_ancestors` raises on a missing class (fatal); the
reachability closure computed into `found` is then discarded
(`found.clear()`), so it is not re-run here; `_data_product` mutates the
schemaview; `clean` keeps only the named class. -/
def dataProductRun (sv : Schema) (cn : String) : Except Unit Schema :=
  match classAncestors sv cn with
  | Except.error u => Except.error u
  | Except.ok _ =>
    Except.ok (clean (dataProductTransform sv cn) [cn])

/-- The range rewriting described by the flattening contract, as a pure
function of the source schema: an attribute whose range is a class with an
identifier slot gets that identifier slot's range; otherwise — no
identifier slot, or a non-class range, for which `get_identifier_slot`
raises — the attribute is left unchanged. -/
def dpRewriteSpec (sv : Schema) (sd : SlotDef) : SlotDef :=
  match sd.range with
  | none => sd
  | some r =>
    match getIdentifierSlotE sv r with
    | Except.ok (some ids) => { sd with range := ids.range }
    | _ => sd

/-- Well-formedness side condition for flattening `cn`: the induced
attribute named `n` must not have `cn` among the ancestors of its range
class (otherwise the in-place mutation of `cn`'s attributes could feed
back into the identifier queries mid-loop). -/
def dpAcyclicAt (sv : Schema) (cn : String) (ancs : List String)
    (n : String) : Bool :=
  match inducedDef sv ancs n with
  | none => true
  | some sd =>
    match sd.range with
    | none => true
    | some r =>
      match classAncestors sv r with
      | Except.error _ => true
      | Except.ok l => !(l.contains cn)

/-- Well-formedness of `cn`'s parent reference: absent, or a class key of
the schema different from `cn` (so that `clean`'s delete pass clears it). -/
def dpParentOk (sv : Schema) (cn : String) (cdef : ClassDef) : Bool :=
  match cdef.is_a with
  | none => true
  | some P => !(P == cn) && (sv.classes.map Prod.fst).contains P

/-! ### Instance walker (`_class_instance` / `example`) -/

/-- The per-run uuid cache of `SchemaProfiler._get_uuid`: a mapping from
identifier keys to generated values plus a counter standing in for the
external uuid4 source (the claims never depend on the generated text). -/
structure UuidSt where
  cache : List (String × String)
  ctr : Nat
deriving DecidableEq, Repr

def UuidSt.empty : UuidSt := ⟨[], 0⟩

/-- `_get_uuid(identifier)`: return the cached value or generate and cache
a fresh one. -/
def getUuid (u : UuidSt) (k : String) : String × UuidSt :=
  match lookup1 u.cache k with
  | some v => (v, u)
  | none =>
    let v := "uuid-" ++ toString u.ctr
    (v, ⟨u.cache ++ [(k, v)], u.ctr + 1⟩)

/-- The YAML-ish values the walker produces. -/
inductive WVal where
  | s (v : String)
  | n (v : Nat)
  | b (v : Bool)
  | lst (v : List WVal)
  | obj (v : List (String × WVal))

/-- Result of a `_class_instance` call: a value with the updated uuid
cache, a Python exception (AttributeError / IndexError / ValueError), or
fuel exhaustion — the embedding's marker for unbounded recursion, which
the Python code (having no guard beyond the interpreter stack) cannot
intercept. -/
inductive WR where
  | ok (v : WVal) (u : UuidSt)
  | err
  | nofuel

/-- Accumulator of the attribute loop inside `_class_instance`. -/
inductive WAcc where
  | cont (fields : List (String × WVal)) (u : UuidSt)
  | err
  | nofuel

/-- Character-level worker for `str.split(':')`: structural recursion so
that the kernel can evaluate it (semantically identical to Python's
split on a one-character separator). -/
def splitColonChars : List Char → List (List Char)
  | [] => [[]]
  | c :: rest =>
    match splitColonChars rest with
    | [] => [[]]
    | cur :: parts =>
      if c = ':' then [] :: (cur :: parts) else (c :: cur) :: parts

/-- `str.split(':')` of Python. -/
def splitColon (s : String) : List String :=
  (splitColonChars s.data).map List.asString

/-- Fixed inputs of a walker run: the (deep-copied) view, the loaded
schema's id and version, and the formatted current date/datetime that the
Python code obtains from `datetime.now()`. -/
structure WalkerCtx where
  view : Schema
  schemaId : String
  schemaVersion : String
  nowDate : String
  nowDatetime : String

/-- The not-inlined branch of the attribute loop (`_class_instance` lines
313-348): the sequence of `if` statements that successively overwrite
`s_val`, each modelled in order.  Accessing `s_def.slot_uri.split(':')[1]`
fails (AttributeError / IndexError) when the slot_uri is `None` or has no
colon; an enum with no permissible values fails (IndexError from
`pop(0)`) in populate mode; a class range with a broken identifier lookup
propagates the ValueError. -/
def walkPlain (ctx : WalkerCtx) (populate : Bool) (cName : String)
    (sd : SlotDef) (u : UuidSt) : Except Unit (WVal × UuidSt) :=
  let sr := sd.range.bind ctx.view.getElement
  -- FIXME-faithful: type ranges with a `typeof` are resolved one level
  let r1 : Option String :=
    match sr with
    | some (Element.typ t) =>
      match t.typeof with
      | some tf => some tf
      | none => sd.range
    | _ => sd.range
  -- class range with an identifier slot: reference placeholder via uuid
  let step1 : Except Unit (WVal × UuidSt) :=
    match sr, sd.range with
    | some (Element.cls _), some rn =>
      (match getIdentifierSlotE ctx.view rn with
       | Except.error u' => Except.error u'
       | Except.ok none => Except.ok (WVal.s "", u)
       | Except.ok (some ids) =>
         let p := getUuid u (rn ++ "." ++ ids.name)
         Except.ok
           (if sd.multivalued then WVal.lst [WVal.s p.1] else WVal.s p.1,
            p.2))
    | _, _ => Except.ok (WVal.s "", u)
  match step1 with
  | Except.error u' => Except.error u'
  | Except.ok (v1, u1) =>
    -- the unconditional slot_uri inspection
    match sd.slot_uri with
    | none => Except.error ()
    | some uri =>
      match (splitColon uri)[1]? with
      | none => Except.error ()
      | some seg =>
        let v2 := if seg == "conformsTo" then WVal.s ctx.schemaId else v1
        let v3 := if uri == "owl:versionInfo" then WVal.s ctx.schemaVersion
          else v2
        let v4 :=
          if r1 == some "integer" || r1 == some "float" || r1 == some "double"
          then (if populate then WVal.n 2 else WVal.s "") else v3
        let v5 := if r1 == some "boolean"
          then (if populate then WVal.b true else WVal.s "") else v4
        let v6 := if r1 == some "date"
          then (if populate then WVal.s ctx.nowDate else WVal.s "") else v5
        let v7 := if r1 == some "datetime"
          then (if populate then WVal.s ctx.nowDatetime else WVal.s "") else v6
        match sr with
        | some (Element.enm e) =>
          if populate then
            match e.permissible_values.head? with
            | none => Except.error ()
            | some pv => Except.ok (WVal.s pv, u1)
          else Except.ok (WVal.s "", u1)
        | _ =>
          if r1 == some "string" && sd.identifier then
            if populate then
              let p := getUuid u1 (cName ++ "." ++ sd.name)
              Except.ok (WVal.s p.1, p.2)
            else Except.ok (WVal.s "", u1)
          else Except.ok (v7, u1)

/-- `SchemaProfiler._class_instance(c_name, skip, populate, prev)`:
induced class lookup (raises on a missing class or broken chain), the
ancestors of the *previous* class as the only cycle guard, then the
attribute loop: optional attributes are skipped under `skip`; an attribute
whose range is among those ancestors is skipped with an error log; inlined
ranges recurse; everything else goes through `walkPlain`. -/
def walkClass (ctx : WalkerCtx) (skip populate : Bool) :
    Nat → UuidSt → String → Option String → WR
  | 0, _, _, _ => WR.nofuel
  | fuel+1, u0, cName, prev =>
    match lookup1 ctx.view.classes cName with
    | none => WR.err
    | some _ =>
      match classAncestors ctx.view cName with
      | Except.error _ => WR.err
      | Except.ok ancsSelf =>
        let attrs := (inducedNames ctx.view ancsSelf).filterMap
          (inducedDef ctx.view ancsSelf)
        let ancRes : Except Unit (List String) :=
          match prev with
          | none => Except.ok []
          | some p => classAncestors ctx.view p
        match ancRes with
        | Except.error _ => WR.err
        | Except.ok ancestors =>
          let res := attrs.foldl
            (fun acc sd =>
              match acc with
              | WAcc.cont fields u =>
                if !sd.required && skip then WAcc.cont fields u
                else if (match sd.range with
                         | some r => ancestors.contains r
                         | none => false) then WAcc.cont fields u
                else if isInlined ctx.view sd then
                  match sd.range with
                  | none => WAcc.cont fields u
                  | some rn =>
                    match walkClass ctx skip populate fuel u rn (some cName)
                    with
                    | WR.ok v u' =>
                      WAcc.cont
                        (fields ++
                          [(sd.name,
                            if sd.multivalued then WVal.lst [v] else v)]) u'
                    | WR.err => WAcc.err
                    | WR.nofuel => WAcc.nofuel
                else
                  match walkPlain ctx populate cName sd u with
                  | Except.error _ => WAcc.err
                  | Except.ok (v, u') =>
                    WAcc.cont (fields ++ [(sd.name, v)]) u'
              | other => other)
            (WAcc.cont [] u0)
          match res with
          | WAcc.cont fields u => WR.ok (WVal.obj fields) u
          | WAcc.err => WR.err
          | WAcc.nofuel => WR.nofuel

/-! ### Graph model and path finder (`shortest_path`) -/

/-- The networkx DiGraph as the code uses it: insertion-ordered node and
edge lists. -/
structure Graph where
  nodes : List String
  edges : List (String × String)
deriving DecidableEq, Repr

def Graph.addNode (g : Graph) (n : String) : Graph :=
  if g.nodes.contains n then g else { g with nodes := g.nodes ++ [n] }

/-- `G.add_edge(a, b)`: adds missing endpoints as nodes, then the edge. -/
def Graph.addEdge (g : Graph) (a b : String) : Graph :=
  let g1 := (g.addNode a).addNode b
  if g1.edges.contains (a, b) then g1
  else { g1 with edges := g1.edges ++ [(a, b)] }

/-- The attribute-edge loop of `shortest_path`: non-class ranges are
skipped (`_range_is_class`); a class range not among the graph's nodes
raises the embedded ValueError; otherwise an associate edge is added. -/
def attrEdges (view : Schema) (cn : String) :
    List (String × SlotDef) → Graph → Except Unit Graph
  | [], g => Except.ok g
  | (_, sd) :: rest, g =>
    match sd.range with
    | none => attrEdges view cn rest g
    | some rn =>
      if hasKey view.classes rn then
        if g.nodes.contains rn then attrEdges view cn rest (g.addEdge cn rn)
        else Except.error ()
      else attrEdges view cn rest g

/-- The edge-construction loop over the snapshot of class nodes: a
generalise edge from the `is_a` parent to the class, then the attribute
edges. -/
def buildEdges (view : Schema) :
    List (String × ClassDef) → Graph → Except Unit Graph
  | [], g => Except.ok g
  | (cn, _) :: rest, g =>
    match lookup1 view.classes cn with
    | none => buildEdges view rest g
    | some cdef =>
      let g1 :=
        match cdef.is_a with
        | some p => g.addEdge p cn
        | none => g
      match attrEdges view cn cdef.attributes g1 with
      | Except.error u => Except.error u
      | Except.ok g2 => buildEdges view rest g2

/-- Graph construction in `shortest_path`: one node per class, then the
edge loops. -/
def buildGraph (view : Schema) : Except Unit Graph :=
  buildEdges view view.classes
    { nodes := view.classes.map (fun p => p.1), edges := [] }

def Graph.succ (g : Graph) (n : String) : List String :=
  (g.edges.filter (fun e => e.1 == n)).map (fun e => e.2)

/-- All simple paths from `cur` to `d` (depth-first, no node revisited);
fuel bounded by the node count, which a simple path cannot exceed. -/
def simplePathsGo (g : Graph) (d : String) :
    Nat → String → List String → List (List String)
  | 0, _, _ => []
  | fuel+1, cur, visited =>
    if cur == d then [visited.reverse]
    else
      ((g.succ cur).filter (fun x => !(visited.contains x))).flatMap
        (fun nxt => simplePathsGo g d fuel nxt (nxt :: visited))

/-- Model of networkx `all_shortest_paths` output: the simple paths of
minimal length (empty when the destination is unreachable). -/
def allShortestPaths (g : Graph) (s d : String) : List (List String) :=
  let ps := simplePathsGo g d (g.nodes.length + 1) s [s]
  ps.filter (fun p => ps.all (fun q => p.length ≤ q.length))

inductive SPErr where
  | badRange
  | noPath
  | nodeNotFound
deriving DecidableEq, Repr

/-- `SchemaProfiler.shortest_path(source, destination)`: build the graph
(propagating the dangling-range ValueError), then iterate networkx
`all_shortest_paths`, which raises NodeNotFound for a missing source and
NetworkXNoPath when the destination cannot be reached; the Python method
only logs the paths, so the embedding returns them. -/
def shortestPath (view : Schema) (source dest : String) :
    Except SPErr (List (List String)) :=
  match buildGraph view with
  | Except.error _ => Except.error SPErr.badRange
  | Except.ok g =>
    if !(g.nodes.contains source) then Except.error SPErr.nodeNotFound
    else
      let ps := allShortestPaths g source dest
      if ps.isEmpty then Except.error SPErr.noPath else Except.ok ps

/-! ### Properties -/

/-- The range of an attribute resolves inside a builder's output schema
(as a class, type or enum). -/
def RangeInBuilder (b : Builder) (r : Option String) : Prop :=
  ∀ rn, r = some rn →
    b.hasClass rn = true ∨ b.hasType rn = true ∨ b.hasEnum rn = true

/-- Every attribute range of a class resolves inside the builder: the
closure property for one output class. -/
def ClassClosed (b : Builder) (c : ClassDef) : Prop :=
  ∀ p ∈ c.attributes, RangeInBuilder b (p : String × SlotDef).2.range

/-- The element (if any) is present in the builder under its own name. -/
def ElemPresent (b : Builder) (oe : Option Element) : Prop :=
  ∀ e, oe = some e →
    (match e with
     | Element.cls c => b.hasClass c.name = true
     | Element.typ t => b.hasType t.name = true
     | Element.enm en => b.hasEnum en.name = true
     | Element.slt _ => True)

/-- Keys of the three categories name their entries (true of any schema
loaded from LinkML YAML, where the maps are keyed by element name). -/
def NC (s : Schema) : Prop :=
  (∀ p ∈ s.classes, (p : String × ClassDef).2.name = p.1) ∧
  (∀ p ∈ s.types, (p : String × TypeDef).2.name = p.1) ∧
  (∀ p ∈ s.enums, (p : String × EnumDef).2.name = p.1)

/-- Class entries are keyed by their names. -/
def NCc (s : Schema) : Prop :=
  ∀ p ∈ s.classes, (p : String × ClassDef).2.name = p.1

/-- Attribute entries of every class are keyed by the slot names. -/
def NCA (s : Schema) : Prop :=
  ∀ p ∈ s.classes, ∀ q ∈ (p : String × ClassDef).2.attributes,
    (q : String × SlotDef).2.name = q.1

instance (s : Schema) : Decidable (NC s) := by
  unfold NC; infer_instance

instance (s : Schema) : Decidable (NCc s) := by
  unfold NCc; infer_instance

instance (s : Schema) : Decidable (NCA s) := by
  unfold NCA; infer_instance

/-! ### Concrete schemas used by the counterexamples and witnesses -/

/-- A required class-valued slot pointing at `B`. -/
def slotX : SlotDef := ⟨"x", some "B", true, false, false, false, none⟩

/-- `A --(x, required)--> B`. -/
def reqSchema : Schema :=
  ⟨"sid", "v",
   [("A", ⟨"A", none, [("x", slotX)]⟩), ("B", ⟨"B", none, []⟩)],
   [], [], []⟩

/-- The association cycle of the spec's scenario:
`A --(x, required)--> B --(y, required)--> A`. -/
def cycSchema : Schema :=
  ⟨"sid", "v",
   [("A", ⟨"A", none,
      [("x", ⟨"x", some "B", true, false, false, false, none⟩)]⟩),
    ("B", ⟨"B", none,
      [("y", ⟨"y", some "A", true, false, false, false, none⟩)]⟩)],
   [], [], []⟩

/-- The slot with the dangling range. -/
def ghostSlot : SlotDef := ⟨"x", some "Ghost", true, false, false, false, none⟩

/-- Class `A` whose attribute range `Ghost` names nothing in the schema. -/
def ghostA : ClassDef := ⟨"A", none, [("x", ghostSlot)]⟩

/-- Schema with a dangling attribute range. -/
def ghostSchema : Schema := ⟨"sid", "v", [("A", ghostA)], [], [], []⟩

/-- A single class `cn` with one required, inlined attribute `an` whose
range is `cn` itself (the spec's `Self` scenario, names generalized). -/
def mkSelfSchema (cn an : String) : Schema :=
  ⟨"sid", "v",
   [(cn, ⟨cn, none, [(an, ⟨an, some cn, true, false, false, true, none⟩)]⟩)],
   [], [], []⟩

/-- An inlined association 3-cycle `A → B → C → A`. -/
def cyc3Schema : Schema :=
  ⟨"sid", "v",
   [("A", ⟨"A", none,
      [("x", ⟨"x", some "B", true, false, false, true, none⟩)]⟩),
    ("B", ⟨"B", none,
      [("y", ⟨"y", some "C", true, false, false, true, none⟩)]⟩),
    ("C", ⟨"C", none,
      [("z", ⟨"z", some "A", true, false, false, true, none⟩)]⟩)],
   [], [], []⟩

/-- An inlined association 2-cycle `A → B → A`. -/
def cyc2Schema : Schema :=
  ⟨"sid", "v",
   [("A", ⟨"A", none,
      [("x", ⟨"x", some "B", true, false, false, true, none⟩)]⟩),
    ("B", ⟨"B", none,
      [("y", ⟨"y", some "A", true, false, false, true, none⟩)]⟩)],
   [], [], []⟩

/-- A single class with one required attribute of range `rng` and the
given `slot_uri` (for the slot-uri failure family). -/
def mkUriSchema (u : Option String) (rng : String) : Schema :=
  ⟨"sid", "v",
   [("A", ⟨"A", none, [("p", ⟨"p", some rng, true, false, false, false, u⟩)]⟩)],
   [], [], []⟩

/-- Two isolated classes (no edges at all). -/
def twoAB : Schema :=
  ⟨"sid", "v", [("A", ⟨"A", none, []⟩), ("B", ⟨"B", none, []⟩)], [], [], []⟩

/-- Walker context over a schema, with fixed date stand-ins. -/
def ctxOf (s : Schema) : WalkerCtx := ⟨s, s.id, s.version, "D", "DT"⟩

/-- Schema for the flattening witness: `Dog is_a Animal`, a reference `R`
with an identifier slot, a reference `Q` without one. -/
def dpSchema : Schema :=
  ⟨"sid", "v",
   [("Animal", ⟨"Animal", none,
      [("name", ⟨"name", some "string", true, false, false, false, none⟩)]⟩),
    ("Dog", ⟨"Dog", some "Animal",
      [("breed", ⟨"breed", some "string", false, false, false, false, none⟩),
       ("owner", ⟨"owner", some "R", false, false, false, false, none⟩),
       ("toy", ⟨"toy", some "Q", false, false, false, false, none⟩)]⟩),
    ("R", ⟨"R", none,
      [("rid", ⟨"rid", some "string", true, false, true, false, none⟩)]⟩),
    ("Q", ⟨"Q", none,
      [("qv", ⟨"qv", some "string", false, false, false, false, none⟩)]⟩)],
   [], [], []⟩

/-- Relation between the builder states before and after one successful
`_profile` call: entries present on entry keep their values; types and
enums only grow; every type of the output originates in the view or the
input builder (no type is invented); and every class that the call adds is
range-closed in the resulting builder. -/
def StepInv (view : Schema) (b b' : Builder) : Prop :=
  (∀ x, b.hasClass x = true → lookup1 b'.classes x = lookup1 b.classes x) ∧
  (∀ x, b.hasType x = true → b'.hasType x = true) ∧
  (∀ x, b.hasEnum x = true → b'.hasEnum x = true) ∧
  (∀ x, b'.hasType x = true → b.hasType x = true ∨ hasKey view.types x = true) ∧
  (∀ x c', b.hasClass x = false → lookup1 b'.classes x = some c' →
    ClassClosed b' c')

/-- The schema reached by a `_profile` call keeps the class-name key list
of the schema it started from (attribute maps may change in place). -/
def resKeys (st : PState) (r : PRes) : Prop :=
  match r with
  | PRes.ok st' => st'.sch.classes.map Prod.fst = st.sch.classes.map Prod.fst
  | PRes.raised st' =>
    st'.sch.classes.map Prod.fst = st.sch.classes.map Prod.fst
  | PRes.nofuel => True

/-- The schema `cycSchema` after `profile(['A'])` has pruned `A`'s
attribute map in place. -/
def cycPrunedA : Schema :=
  ⟨"sid", "v",
   [("A", ⟨"A", none, []⟩),
    ("B", ⟨"B", none,
      [("y", ⟨"y", some "A", true, false, false, false, none⟩)]⟩)],
   [], [], []⟩

/-- The schema `reqSchema` after `profile(['A'])` has pruned `A`'s
attribute map in place. -/
def reqSchemaPruned : Schema :=
  ⟨"sid", "v", [("A", ⟨"A", none, []⟩), ("B", ⟨"B", none, []⟩)], [], [], []⟩

/-- Wrapping of a recursive `_class_instance` result as the single
attribute of the enclosing instance: the composition of the attribute-loop
step with the final object construction, for a one-attribute class. -/
def wrapObj (nm : String) (mv : Bool) (r : WR) : WR :=
  match (match r with
         | WR.ok v u' => WAcc.cont [(nm, if mv then WVal.lst [v] else v)] u'
         | WR.err => WAcc.err
         | WR.nofuel => WAcc.nofuel) with
  | WAcc.cont fields u => WR.ok (WVal.obj fields) u
  | WAcc.err => WR.err
  | WAcc.nofuel => WR.nofuel

/-- Wrapping of a `walkPlain` result as the single attribute of the
enclosing instance (the not-inlined analogue of `wrapObj`). -/
def wrapPlain (nm : String) (r : Except Unit (WVal × UuidSt)) : WR :=
  match (match r with
         | Except.error _ => WAcc.err
         | Except.ok (v, u') => WAcc.cont [(nm, v)] u') with
  | WAcc.cont fields u => WR.ok (WVal.obj fields) u
  | WAcc.err => WR.err
  | WAcc.nofuel => WR.nofuel

/-! ### Association-list lemmas -/

theorem lookup1_nil {α : Type} (k : String) : lookup1 ([] : List (String × α)) k = none := rfl

theorem lookup1_cons {α : Type} (a : String × α) (l : List (String × α)) (k : String) :
    lookup1 (a :: l) k = if a.1 == k then some a.2 else lookup1 l k := by
  by_cases h : a.1 == k
  · simp [lookup1, List.find?, h]
  · simp only [Bool.not_eq_true] at h
    simp [lookup1, List.find?, h]

theorem lookup1_append {α : Type} (l m : List (String × α)) (k : String) :
    lookup1 (l ++ m) k = (lookup1 l k).or (lookup1 m k) := by
  simp only [lookup1, List.find?_append]
  cases l.find? (fun p => p.1 == k) <;> simp

theorem lookup1_append_left {α : Type} {l : List (String × α)} (m : List (String × α))
    {k : String} (h : (lookup1 l k).isSome = true) :
    lookup1 (l ++ m) k = lookup1 l k := by
  rw [lookup1_append]
  cases hl : lookup1 l k
  · rw [hl] at h; simp at h
  · simp

theorem lookup1_append_right {α : Type} {l : List (String × α)} (m : List (String × α))
    {k : String} (h : lookup1 l k = none) :
    lookup1 (l ++ m) k = lookup1 m k := by
  rw [lookup1_append, h]; simp

theorem lookup1_singleton_self {α : Type} (k : String) (v : α) :
    lookup1 [(k, v)] k = some v := by
  simp [lookup1_cons]

theorem lookup1_singleton_ne {α : Type} {k x : String} (v : α) (h : k ≠ x) :
    lookup1 [(k, v)] x = none := by
  rw [lookup1_cons]
  have : ((k, v).1 == x) = false := beq_eq_false_iff_ne.mpr h
  rw [this]
  rfl

theorem setVal_keys {α : Type} (l : List (String × α)) (k : String) (v : α) :
    (setVal l k v).map Prod.fst = l.map Prod.fst := by
  induction l with
  | nil => rfl
  | cons a l ih =>
    show ((if a.1 == k then (k, v) else a) :: setVal l k v).map Prod.fst = _
    by_cases h : (a.1 == k) = true
    · have hk : a.1 = k := beq_iff_eq.mp h
      rw [h]
      simp only [if_true, List.map_cons, ih, hk]
    · rw [Bool.not_eq_true] at h
      rw [h]
      simp only [Bool.false_eq_true, if_false, List.map_cons, ih]

theorem lookup1_setVal_ne {α : Type} (l : List (String × α)) {k x : String}
    (v : α) (h : k ≠ x) : lookup1 (setVal l k v) x = lookup1 l x := by
  induction l with
  | nil => rfl
  | cons a l ih =>
    show lookup1 ((if a.1 == k then (k, v) else a) :: setVal l k v) x = _
    rw [lookup1_cons, lookup1_cons]
    by_cases ha : (a.1 == k) = true
    · have hak : a.1 = k := beq_iff_eq.mp ha
      have hax : (a.1 == x) = false := by
        apply beq_eq_false_iff_ne.mpr
        rw [hak]; exact h
      have hkx : ((k, v).1 == x) = false := beq_eq_false_iff_ne.mpr h
      rw [ha]
      simp only [if_true, hkx, hax, Bool.false_eq_true, if_false, ih]
    · rw [Bool.not_eq_true] at ha
      rw [ha]
      simp only [Bool.false_eq_true, if_false, ih]

theorem lookup1_setVal_self {α : Type} (l : List (String × α)) (k : String)
    (v : α) (h : (lookup1 l k).isSome = true) :
    lookup1 (setVal l k v) k = some v := by
  induction l with
  | nil => simp [lookup1] at h
  | cons a l ih =>
    show lookup1 ((if a.1 == k then (k, v) else a) :: setVal l k v) k = _
    by_cases ha : (a.1 == k) = true
    · rw [ha]
      simp only [if_true]
      rw [lookup1_cons]
      have : ((k, v).1 == k) = true := by simp
      rw [this]
      simp only [if_true]
    · rw [Bool.not_eq_true] at ha
      rw [lookup1_cons, ha] at h
      simp only [Bool.false_eq_true, if_false] at h
      rw [ha]
      simp only [Bool.false_eq_true, if_false]
      rw [lookup1_cons, ha]
      simp only [Bool.false_eq_true, if_false]
      exact ih h

theorem hasKey_iff_keys_mem {α : Type} (l : List (String × α)) (k : String) :
    hasKey l k = true ↔ k ∈ l.map Prod.fst := by
  induction l with
  | nil => simp [hasKey, lookup1]
  | cons a l ih =>
    by_cases ha : (a.1 == k) = true
    · have hk : a.1 = k := beq_iff_eq.mp ha
      simp [hasKey, lookup1_cons, ha, hk]
    · rw [Bool.not_eq_true] at ha
      have hne : a.1 ≠ k := by
        intro hc
        rw [hc] at ha
        simp at ha
      unfold hasKey at *
      rw [lookup1_cons, ha]
      simp only [Bool.false_eq_true, if_false, List.map_cons, List.mem_cons]
      rw [ih]
      constructor
      · exact Or.inr
      · rintro (h | h)
        · exact absurd h.symm hne
        · exact h

theorem hasKey_setVal {α : Type} (l : List (String × α)) (k x : String) (v : α) :
    hasKey (setVal l k v) x = hasKey l x := by
  rw [Bool.eq_iff_iff, hasKey_iff_keys_mem, hasKey_iff_keys_mem, setVal_keys]

theorem lookup1_eq_none_iff {α : Type} {l : List (String × α)} {k : String} :
    lookup1 l k = none ↔ ¬ k ∈ l.map Prod.fst := by
  rw [← hasKey_iff_keys_mem]
  unfold hasKey
  cases he : lookup1 l k <;> simp

theorem lookup1_some_mem {α : Type} {l : List (String × α)} {k : String}
    {v : α} (h : lookup1 l k = some v) : (k, v) ∈ l := by
  unfold lookup1 at h
  cases hf : l.find? (fun p => p.1 == k) with
  | none => rw [hf] at h; exact absurd h (by simp)
  | some pr =>
    rw [hf] at h
    have hm := List.mem_of_find?_eq_some hf
    have hp := List.find?_some hf
    have hk : pr.1 = k := beq_iff_eq.mp hp
    have hv : pr.2 = v := by
      injection h
    have : pr = (k, v) := by
      cases pr
      simp only at hk hv
      rw [hk, hv]
    rw [← this]
    exact hm

theorem setVal_append_fresh {α : Type} {l : List (String × α)} {n : String}
    (v v' : α) (h : lookup1 l n = none) :
    setVal (l ++ [(n, v)]) n v' = l ++ [(n, v')] := by
  induction l with
  | nil =>
    show (if (n, v).1 == n then (n, v') else (n, v)) :: setVal [] n v' = _
    simp [setVal]
  | cons a l ih =>
    rw [lookup1_cons] at h
    by_cases ha : (a.1 == n) = true
    · rw [ha] at h; simp at h
    · rw [Bool.not_eq_true] at ha
      rw [ha] at h
      simp only [Bool.false_eq_true, if_false] at h
      show (if a.1 == n then (n, v') else a) :: setVal (l ++ [(n, v)]) n v' = _
      rw [ha]
      simp only [Bool.false_eq_true, if_false, List.cons_append]
      rw [ih h]

theorem hasKey_append {α : Type} (l m : List (String × α)) (k : String) :
    hasKey (l ++ m) k = (hasKey l k || hasKey m k) := by
  unfold hasKey
  rw [lookup1_append]
  cases lookup1 l k <;> simp

/-- With the slot category empty, `get_element` can never return a slot. -/
theorem getElement_no_slt {view : Schema} (hs : view.slots = []) (rn : String)
    {s : SlotDef} : view.getElement rn ≠ some (Element.slt s) := by
  intro h
  unfold Schema.getElement at h
  cases hc : lookup1 view.classes rn with
  | some c0 => simp [hc] at h
  | none =>
    simp only [hc, hs, lookup1_nil] at h
    cases ht : lookup1 view.types rn with
    | some t0 => simp [ht] at h
    | none =>
      simp only [ht] at h
      cases hen : lookup1 view.enums rn with
      | some e0 => simp [hen] at h
      | none => simp [hen] at h

theorem getElement_cls_spec {view : Schema} (hv : NC view) {rn : String}
    {c : ClassDef} (h : view.getElement rn = some (Element.cls c)) :
    c.name = rn ∧ hasKey view.classes rn = true := by
  unfold Schema.getElement at h
  cases hc : lookup1 view.classes rn with
  | none =>
    exfalso
    simp only [hc] at h
    cases hsl : lookup1 view.slots rn with
    | some s0 => simp [hsl] at h
    | none =>
      simp only [hsl] at h
      cases ht : lookup1 view.types rn with
      | some t0 => simp [ht] at h
      | none =>
        simp only [ht] at h
        cases hen : lookup1 view.enums rn with
        | some e0 => simp [hen] at h
        | none => simp [hen] at h
  | some c0 =>
    simp only [hc, Option.some.injEq, Element.cls.injEq] at h
    subst h
    refine ⟨?_, by unfold hasKey; rw [hc]; rfl⟩
    exact hv.1 _ (lookup1_some_mem hc)

theorem getElement_typ_spec {view : Schema} (hv : NC view) {rn : String}
    {t : TypeDef} (h : view.getElement rn = some (Element.typ t)) :
    t.name = rn ∧ hasKey view.types rn = true := by
  unfold Schema.getElement at h
  cases hc : lookup1 view.classes rn with
  | some c0 => simp [hc] at h
  | none =>
    simp only [hc] at h
    cases hsl : lookup1 view.slots rn with
    | some s0 => simp [hsl] at h
    | none =>
      simp only [hsl] at h
      cases ht : lookup1 view.types rn with
      | none =>
        exfalso
        simp only [ht] at h
        cases hen : lookup1 view.enums rn with
        | some e0 => simp [hen] at h
        | none => simp [hen] at h
      | some t0 =>
        simp only [ht, Option.some.injEq, Element.typ.injEq] at h
        subst h
        refine ⟨?_, by unfold hasKey; rw [ht]; rfl⟩
        exact hv.2.1 _ (lookup1_some_mem ht)

theorem getElement_enm_spec {view : Schema} (hv : NC view) {rn : String}
    {e : EnumDef} (h : view.getElement rn = some (Element.enm e)) :
    e.name = rn ∧ hasKey view.enums rn = true := by
  unfold Schema.getElement at h
  cases hc : lookup1 view.classes rn with
  | some c0 => simp [hc] at h
  | none =>
    simp only [hc] at h
    cases hsl : lookup1 view.slots rn with
    | some s0 => simp [hsl] at h
    | none =>
      simp only [hsl] at h
      cases ht : lookup1 view.types rn with
      | some t0 => simp [ht] at h
      | none =>
        simp only [ht] at h
        cases hen : lookup1 view.enums rn with
        | none => simp [hen] at h
        | some e0 =>
          simp only [hen, Option.some.injEq, Element.enm.injEq] at h
          subst h
          refine ⟨?_, by unfold hasKey; rw [hen]; rfl⟩
          exact hv.2.2 _ (lookup1_some_mem hen)

/-- Every attribute kept by the filtering loop has a range that resolves
to some schema element. -/
theorem filterAttrs_sound {view : Schema} {cNames : List String} :
    ∀ {l l' : List (String × SlotDef)},
      filterAttrs view cNames l = Except.ok l' →
      ∀ p ∈ l', ∃ rn, (p : String × SlotDef).2.range = some rn ∧
        (view.getElement rn).isSome = true := by
  intro l
  induction l with
  | nil =>
    intro l' h p hp
    unfold filterAttrs at h
    injection h with h
    subst h
    exact absurd hp (List.not_mem_nil p)
  | cons a l ih =>
    intro l' h p hp
    unfold filterAttrs at h
    cases hr : a.2.range with
    | none => simp only [hr] at h; exact absurd h (by simp)
    | some rn =>
      simp only [hr] at h
      cases hg : view.getElement rn with
      | none => simp only [hg] at h; exact absurd h (by simp)
      | some e =>
        simp only [hg] at h
        by_cases hskip : (hasKey view.classes rn && !(cNames.contains rn)) = true
        · rw [if_pos hskip] at h
          exact ih h p hp
        · rw [if_neg hskip] at h
          cases hrec : filterAttrs view cNames l with
          | error u => simp only [hrec] at h; exact absurd h (by simp)
          | ok l0 =>
            simp only [hrec, Except.ok.injEq] at h
            subst h
            cases hp with
            | head =>
              exact ⟨rn, hr, by rw [hg]; rfl⟩
            | tail _ hp0 =>
              exact ih hrec p hp0

/-! ### The inlined 3-cycle drives `_class_instance` into unbounded
recursion: one unfolding step per cycle position, then induction. -/

theorem cyc3_stepA (n : Nat) (u : UuidSt) :
    walkClass (ctxOf cyc3Schema) false true (n+1) u "A" (some "C") =
      wrapObj "x" false
        (walkClass (ctxOf cyc3Schema) false true n u "B" (some "A")) := rfl

theorem cyc3_stepB (n : Nat) (u : UuidSt) :
    walkClass (ctxOf cyc3Schema) false true (n+1) u "B" (some "A") =
      wrapObj "y" false
        (walkClass (ctxOf cyc3Schema) false true n u "C" (some "B")) := rfl

theorem cyc3_stepC (n : Nat) (u : UuidSt) :
    walkClass (ctxOf cyc3Schema) false true (n+1) u "C" (some "B") =
      wrapObj "z" false
        (walkClass (ctxOf cyc3Schema) false true n u "A" (some "C")) := rfl

theorem cyc3_stepTop (n : Nat) (u : UuidSt) :
    walkClass (ctxOf cyc3Schema) false true (n+1) u "A" none =
      wrapObj "x" false
        (walkClass (ctxOf cyc3Schema) false true n u "B" (some "A")) := rfl

theorem cyc3_all (n : Nat) (u : UuidSt) :
    walkClass (ctxOf cyc3Schema) false true n u "A" (some "C") = WR.nofuel ∧
    walkClass (ctxOf cyc3Schema) false true n u "B" (some "A") = WR.nofuel ∧
    walkClass (ctxOf cyc3Schema) false true n u "C" (some "B") = WR.nofuel := by
  induction n with
  | zero => exact ⟨rfl, rfl, rfl⟩
  | succ n ih =>
    refine ⟨?_, ?_, ?_⟩
    · rw [cyc3_stepA n u, (ih).2.1]; exact rfl
    · rw [cyc3_stepB n u, (ih).2.2]; exact rfl
    · rw [cyc3_stepC n u, (ih).1]; exact rfl

/-- C6: the claim states that instance generation terminates on every
schema because the cycle guard bounds the recursion.  On the inlined
3-cycle `A → B → C → A` the guard (which only compares a range against the
ancestors of the immediately enclosing class) never fires, and
`_class_instance('A')` recurses without bound: in the fuel embedding, no
amount of fuel suffices.  The code's own comment says "Do not recurse
indefinitely", so this is a bug in the code rather than in the claim. -/
theorem c6_nontermination : ∀ (fuel : Nat) (u : UuidSt),
    walkClass (ctxOf cyc3Schema) false true fuel u "A" none = WR.nofuel := by
  intro fuel u
  cases fuel with
  | zero => rfl
  | succ n =>
    rw [cyc3_stepTop n u, (cyc3_all n u).2.1]
    exact rfl

/-- C1 counterexample: profiling `ghostSchema` from root `A` aborts on the
dangling range `Ghost`, yet class `A` stays in the output with its
attribute `x`, whose range `Ghost` is present in the output neither as a
class nor as a type nor as an enum. -/
theorem c1_counterexample :
    (Profiler.init ghostSchema ["A"]).profile 5 =
      some (Profiler.init ghostSchema ["A"], ⟨[("A", ghostA)], [], []⟩) ∧
    (Builder.mk [("A", ghostA)] [] []).hasClass "Ghost" = false ∧
    (Builder.mk [("A", ghostA)] [] []).hasType "Ghost" = false ∧
    (Builder.mk [("A", ghostA)] [] []).hasEnum "Ghost" = false ∧
    lookup1 ghostA.attributes "x" = some ghostSlot ∧
    ghostSlot.range = some "Ghost" :=
  ⟨rfl, rfl, rfl, rfl, rfl, rfl⟩

/-- C2 counterexample: in `reqSchema` the slot `A::x` is required and its
range `B` is a class outside the keep-set `['A']`; the profiler drops the
slot from the output class entirely (it is neither kept nor rewritten),
and no sentinel type is ever added (the output type map is empty). -/
theorem c2_counterexample :
    slotX.required = true ∧
    (Profiler.init reqSchema ["A"]).profile 5 =
      some (⟨reqSchemaPruned, reqSchema, ["A"]⟩,
            ⟨[("A", ⟨"A", none, []⟩)], [], []⟩) ∧
    lookup1 reqSchema.classes "A" = some ⟨"A", none, [("x", slotX)]⟩ ∧
    (Builder.mk [("A", ⟨"A", none, []⟩)] [] []).types = [] :=
  ⟨rfl, rfl, rfl, rfl⟩

/-- C3 counterexample: on the association cycle `A ⇄ B`, `profile(['A'])`
terminates but its output does not contain `B` (the required slot
`A::x` with range `B` is dropped because `B` is not in the keep-set). -/
theorem c3_counterexample :
    (Profiler.init cycSchema ["A"]).profile 5 =
      some (⟨cycPrunedA, cycSchema, ["A"]⟩,
            ⟨[("A", ⟨"A", none, []⟩)], [], []⟩) ∧
    (Builder.mk [("A", ⟨"A", none, []⟩)] [] []).hasClass "B" = false :=
  ⟨rfl, rfl⟩

/-- C3 (amended): on the association cycle, `profile(['A'])` terminates
with output `{A}` (the cycle edge is pruned, since the keep-set derived
from root `A` is `{A}`); with both classes as roots, `profile(['A','B'])`
terminates — the builder membership check stops the recursion — and the
output contains both classes with their attributes intact. -/
theorem c3_cycle_profile :
    (Profiler.init cycSchema ["A"]).profile 5 =
      some (⟨cycPrunedA, cycSchema, ["A"]⟩,
            ⟨[("A", ⟨"A", none, []⟩)], [], []⟩) ∧
    (Profiler.init cycSchema ["A", "B"]).profile 5 =
      some (⟨cycSchema, cycSchema, ["A", "B"]⟩,
            ⟨[("A", ⟨"A", none,
                [("x", ⟨"x", some "B", true, false, false, false, none⟩)]⟩),
              ("B", ⟨"B", none,
                [("y", ⟨"y", some "A", true, false, false, false, none⟩)]⟩)],
             [], []⟩) :=
  ⟨rfl, rfl⟩

/-- C5 counterexample: on the self-referential inlined schema, the walker
does not raise any Recursion condition — it returns the truncated partial
instance `{a: {}}` (the inner self-reference is silently skipped after an
error log). -/
theorem c5_counterexample :
    walkClass (ctxOf (mkSelfSchema "Self" "a")) false true 5 UuidSt.empty
      "Self" none = WR.ok (WVal.obj [("a", WVal.obj [])]) UuidSt.empty :=
  rfl

/-- C7 counterexample: after `profile()`, the profiler's input schema has
been mutated in place — the attribute map of class `A` was pruned from
`{x}` to `{}`. -/
theorem c7_counterexample :
    (Profiler.init reqSchema ["A"]).profile 5 =
      some (⟨reqSchemaPruned, reqSchema, ["A"]⟩,
            ⟨[("A", ⟨"A", none, []⟩)], [], []⟩) ∧
    reqSchemaPruned ≠ reqSchema ∧
    lookup1 reqSchemaPruned.classes "A" = some ⟨"A", none, []⟩ ∧
    lookup1 reqSchema.classes "A" = some ⟨"A", none, [("x", slotX)]⟩ := by
  refine ⟨rfl, ?_, rfl, rfl⟩
  decide

/-- C8 counterexample: with two classes and no edges, `shortest_path`
does not produce an empty sequence — the iteration over networkx
`all_shortest_paths` raises NetworkXNoPath. -/
theorem c8_counterexample :
    shortestPath twoAB "A" "B" = Except.error SPErr.noPath :=
  rfl

/-! ### The profiler's builder invariant -/

theorem hasClass_false_lookup {b : Builder} {x : String}
    (h : b.hasClass x = false) : lookup1 b.classes x = none := by
  unfold Builder.hasClass hasKey at h
  cases he : lookup1 b.classes x
  · rfl
  · rw [he] at h; simp at h

theorem hasClass_of_lookup {b : Builder} {x : String} {c : ClassDef}
    (h : lookup1 b.classes x = some c) : b.hasClass x = true := by
  unfold Builder.hasClass hasKey
  rw [h]
  rfl

theorem ClassClosed_mono {b b' : Builder} {c : ClassDef}
    (hc : ∀ x, b.hasClass x = true → b'.hasClass x = true)
    (ht : ∀ x, b.hasType x = true → b'.hasType x = true)
    (he : ∀ x, b.hasEnum x = true → b'.hasEnum x = true)
    (h : ClassClosed b c) : ClassClosed b' c := by
  intro p hp rn hrn
  rcases h p hp rn hrn with h0 | h0 | h0
  · exact Or.inl (hc rn h0)
  · exact Or.inr (Or.inl (ht rn h0))
  · exact Or.inr (Or.inr (he rn h0))

theorem ElemPresent_mono {b b' : Builder} {oe : Option Element}
    (hc : ∀ x, b.hasClass x = true → b'.hasClass x = true)
    (ht : ∀ x, b.hasType x = true → b'.hasType x = true)
    (he : ∀ x, b.hasEnum x = true → b'.hasEnum x = true)
    (h : ElemPresent b oe) : ElemPresent b' oe := by
  intro e hee
  have h0 := h e hee
  cases e with
  | cls c => exact hc _ h0
  | slt s => trivial
  | typ t => exact ht _ h0
  | enm en => exact he _ h0

theorem StepInv_refl (view : Schema) (b : Builder) : StepInv view b b := by
  refine ⟨fun _ _ => rfl, fun _ h => h, fun _ h => h, fun _ h => Or.inl h, ?_⟩
  intro x c' hfresh hx
  have hx' : lookup1 _ x = some c' := hx
  rw [hasClass_false_lookup hfresh] at hx'
  exact absurd hx' (by simp)

theorem StepInv.clsMono {view : Schema} {b b' : Builder}
    (h : StepInv view b b') : ∀ x, b.hasClass x = true → b'.hasClass x = true := by
  intro x hx
  unfold Builder.hasClass hasKey
  rw [h.1 x hx]
  exact hx

theorem StepInv_trans {view : Schema} {b b' b'' : Builder}
    (h1 : StepInv view b b') (h2 : StepInv view b' b'') :
    StepInv view b b'' := by
  refine ⟨?_, ?_, ?_, ?_, ?_⟩
  · intro x hx
    rw [h2.1 x (h1.clsMono x hx), h1.1 x hx]
  · intro x hx; exact h2.2.1 x (h1.2.1 x hx)
  · intro x hx; exact h2.2.2.1 x (h1.2.2.1 x hx)
  · intro x hx
    rcases h2.2.2.2.1 x hx with h0 | h0
    · exact h1.2.2.2.1 x h0
    · exact Or.inr h0
  · intro x c' hfresh hx
    by_cases hmid : b'.hasClass x = true
    · have := h2.1 x hmid
      rw [this] at hx
      exact ClassClosed_mono h2.clsMono h2.2.1 h2.2.2.1
        (h1.2.2.2.2 x c' hfresh hx)
    · rw [Bool.not_eq_true] at hmid
      exact h2.2.2.2.2 x c' hmid hx

theorem profileGo_zero (view : Schema) (cNames : List String) (st : PState)
    (name : String) : profileGo view cNames 0 st name = PRes.nofuel := rfl

/-- One-step unfolding of `profileGo` at positive fuel, with the fold step
named `profStep`. -/
theorem profileGo_succ (view : Schema) (cNames : List String) (fuel : Nat)
    (st : PState) (name : String) :
    profileGo view cNames (fuel+1) st name =
      match view.getElement name with
      | none => PRes.ok st
      | some (Element.slt _) => PRes.ok st
      | some (Element.typ t) =>
        if st.b.hasType t.name then PRes.ok st
        else PRes.ok { st with b := st.b.addType t }
      | some (Element.enm e) =>
        if st.b.hasEnum e.name then PRes.ok st
        else PRes.ok { st with b := st.b.addEnum e }
      | some (Element.cls cV) =>
        if st.b.hasClass cV.name then PRes.ok st
        else
          match filterAttrs view cNames
            ((lookup1 st.sch.classes cV.name).getD cV).attributes with
          | Except.error _ =>
            PRes.raised
              ⟨st.sch, st.b.addClass ((lookup1 st.sch.classes cV.name).getD cV)⟩
          | Except.ok attr =>
            List.foldl (profStep view cNames fuel)
              (PRes.ok
                ⟨st.sch.setClassDef
                    ((lookup1 st.sch.classes cV.name).getD cV).name
                    { (lookup1 st.sch.classes cV.name).getD cV with
                        attributes := attr },
                  (st.b.addClass
                    ((lookup1 st.sch.classes cV.name).getD cV)).setClassDef
                    ((lookup1 st.sch.classes cV.name).getD cV).name
                    { (lookup1 st.sch.classes cV.name).getD cV with
                        attributes := attr }⟩)
              attr := rfl

theorem foldl_profStep_raised (view : Schema) (cNames : List String)
    (fuel : Nat) (l : List (String × SlotDef)) (stM : PState) :
    List.foldl (profStep view cNames fuel) (PRes.raised stM) l =
      PRes.raised stM := by
  induction l with
  | nil => rfl
  | cons p l ih => rw [List.foldl_cons]; exact ih

theorem foldl_profStep_nofuel (view : Schema) (cNames : List String)
    (fuel : Nat) (l : List (String × SlotDef)) :
    List.foldl (profStep view cNames fuel) PRes.nofuel l = PRes.nofuel := by
  induction l with
  | nil => rfl
  | cons p l ih => rw [List.foldl_cons]; exact ih

theorem mem_setVal {α : Type} {l : List (String × α)} {k : String} {v : α}
    {p : String × α} (hp : p ∈ setVal l k v) : p ∈ l ∨ p = (k, v) := by
  induction l with
  | nil => exact absurd hp (List.not_mem_nil p)
  | cons a l ih =>
    have hp' : p ∈ (if a.1 == k then (k, v) else a) :: setVal l k v := hp
    cases hp' with
    | head =>
      by_cases ha : (a.1 == k) = true
      · simp [ha]
      · rw [Bool.not_eq_true] at ha
        simp [ha]
    | tail _ hp0 =>
      rcases ih hp0 with h0 | h0
      · exact Or.inl (List.mem_cons_of_mem a h0)
      · exact Or.inr h0

theorem NCc_setClassDef {sch : Schema} {k : String} {c : ClassDef}
    (hnc : NCc sch) (hck : c.name = k) : NCc (sch.setClassDef k c) := by
  intro p hp
  rcases mem_setVal hp with h0 | h0
  · exact hnc p h0
  · rw [h0]
    exact hck

/-- Master invariant of the profiling recursion: a successful `_profile`
call preserves existing builder entries, only grows the type/enum maps
with elements of the view, range-closes every class it adds, and leaves
the element it was asked about present in the builder; the schema's
key-naming consistency is preserved through the in-place attribute
pruning. -/
theorem profileGo_master {view : Schema} {cNames : List String}
    (hv : NC view) (hs : view.slots = []) :
    ∀ (fuel : Nat) (st : PState) (name : String) (st' : PState),
      profileGo view cNames fuel st name = PRes.ok st' →
      NCc st.sch →
      StepInv view st.b st'.b ∧ ElemPresent st'.b (view.getElement name) ∧
      NCc st'.sch ∧
      (∀ (cV0 : ClassDef) (attr0 : List (String × SlotDef)),
        view.getElement name = some (Element.cls cV0) →
        st.b.hasClass cV0.name = false →
        filterAttrs view cNames
          ((lookup1 st.sch.classes cV0.name).getD cV0).attributes =
          Except.ok attr0 →
        lookup1 st'.b.classes cV0.name =
          some { (lookup1 st.sch.classes cV0.name).getD cV0 with
                   attributes := attr0 }) := by
  intro fuel
  induction fuel with
  | zero =>
    intro st name st' h _
    rw [profileGo_zero] at h
    exact absurd h (by simp)
  | succ fuel ih =>
    have fold : ∀ (l : List (String × SlotDef)) (st0 st' : PState),
        List.foldl (profStep view cNames fuel) (PRes.ok st0) l = PRes.ok st' →
        NCc st0.sch →
        StepInv view st0.b st'.b ∧
        (∀ p ∈ l, ∀ rn, (p : String × SlotDef).2.range = some rn →
          ElemPresent st'.b (view.getElement rn)) ∧
        NCc st'.sch := by
      intro l
      induction l with
      | nil =>
        intro st0 st' h hnc
        rw [List.foldl_nil] at h
        injection h with h
        subst h
        exact ⟨StepInv_refl view st0.b,
          fun p hp => absurd hp (List.not_mem_nil p), hnc⟩
      | cons p l ihl =>
        intro st0 st' h hnc
        rw [List.foldl_cons] at h
        cases hr : p.2.range with
        | none =>
          have hstep : profStep view cNames fuel (PRes.ok st0) p =
              PRes.ok st0 := by
            unfold profStep
            rw [hr]
          rw [hstep] at h
          obtain ⟨h1, h2, h3⟩ := ihl st0 st' h hnc
          refine ⟨h1, ?_, h3⟩
          intro q hq rn hrn
          cases hq with
          | head => rw [hr] at hrn; exact absurd hrn (by simp)
          | tail _ hq0 => exact h2 q hq0 rn hrn
        | some rn =>
          have hstep : profStep view cNames fuel (PRes.ok st0) p =
              profileGo view cNames fuel st0 rn := by
            unfold profStep
            rw [hr]
          rw [hstep] at h
          cases hres : profileGo view cNames fuel st0 rn with
          | ok stm =>
            rw [hres] at h
            obtain ⟨m1, m2, m3, _⟩ := ih st0 rn stm hres hnc
            obtain ⟨r1, r2, r3⟩ := ihl stm st' h m3
            refine ⟨StepInv_trans m1 r1, ?_, r3⟩
            intro q hq rn' hrn'
            cases hq with
            | head =>
              rw [hr] at hrn'
              injection hrn' with hrn'
              subst hrn'
              exact ElemPresent_mono r1.clsMono r1.2.1 r1.2.2.1 m2
            | tail _ hq0 => exact r2 q hq0 rn' hrn'
          | raised stM =>
            rw [hres, foldl_profStep_raised] at h
            exact absurd h (by simp)
          | nofuel =>
            rw [hres, foldl_profStep_nofuel] at h
            exact absurd h (by simp)
    intro st name st' h hnc
    rw [profileGo_succ] at h
    cases he : view.getElement name with
    | none =>
      simp only [he] at h
      injection h with h
      subst h
      refine ⟨StepInv_refl view st.b, ?_, hnc, ?_⟩
      · intro e hee
        exact absurd hee (by simp)
      · intro cV0 attr0 hee hfr hfa
        exact absurd hee (by simp)
    | some el =>
      cases el with
      | slt s =>
        simp only [he] at h
        injection h with h
        subst h
        refine ⟨StepInv_refl view st.b, ?_, hnc, ?_⟩
        · intro e hee
          injection hee with hee
          subst hee
          trivial
        · intro cV0 attr0 hee hfr hfa
          exact absurd hee (by simp)
      | typ t =>
        simp only [he] at h
        by_cases hht : st.b.hasType t.name = true
        · rw [if_pos hht] at h
          injection h with h
          subst h
          refine ⟨StepInv_refl view st.b, ?_, hnc, ?_⟩
          · intro e hee
            injection hee with hee
            subst hee
            exact hht
          · intro cV0 attr0 hee hfr hfa
            exact absurd hee (by simp)
        · rw [if_neg hht] at h
          injection h with h
          subst h
          rw [Bool.not_eq_true] at hht
          have htypes : (st.b.addType t).types = st.b.types ++ [(t.name, t)] := by
            unfold Builder.addType setOrAppend
            unfold Builder.hasType at hht
            rw [hht]
            simp
          have hgrow : ∀ x, st.b.hasType x = true →
              (st.b.addType t).hasType x = true := by
            intro x hx
            unfold Builder.hasType at *
            rw [htypes, hasKey_append, hx]
            rfl
          refine ⟨⟨fun _ _ => rfl, hgrow, fun _ hx => hx, ?_, ?_⟩, ?_, hnc,
            fun cV0 attr0 hee hfr hfa => absurd hee (by simp)⟩
          · intro x hx
            unfold Builder.hasType at hx ⊢
            rw [htypes, hasKey_append] at hx
            rcases Bool.or_eq_true_iff.mp hx with h0 | h0
            · exact Or.inl h0
            · have hx' : x = t.name := by
                unfold hasKey at h0
                cases hl : lookup1 [(t.name, t)] x
                · rw [hl] at h0; simp at h0
                · by_cases hxeq : t.name = x
                  · exact hxeq.symm
                  · rw [lookup1_singleton_ne t hxeq] at hl
                    exact absurd hl (by simp)
              subst hx'
              obtain ⟨hn, hk⟩ := getElement_typ_spec hv he
              rw [hn]
              exact Or.inr hk
          · intro x c' hfresh hx
            have hx' : lookup1 st.b.classes x = some c' := hx
            rw [hasClass_false_lookup hfresh] at hx'
            exact absurd hx' (by simp)
          · intro e hee
            injection hee with hee
            subst hee
            show (st.b.addType t).hasType t.name = true
            unfold Builder.hasType
            rw [htypes, hasKey_append]
            have : hasKey [(t.name, t)] t.name = true := by
              unfold hasKey
              rw [lookup1_singleton_self]
              rfl
            rw [this]
            simp
      | enm en =>
        simp only [he] at h
        by_cases hhe : st.b.hasEnum en.name = true
        · rw [if_pos hhe] at h
          injection h with h
          subst h
          refine ⟨StepInv_refl view st.b, ?_, hnc, ?_⟩
          · intro e hee
            injection hee with hee
            subst hee
            exact hhe
          · intro cV0 attr0 hee hfr hfa
            exact absurd hee (by simp)
        · rw [if_neg hhe] at h
          injection h with h
          subst h
          rw [Bool.not_eq_true] at hhe
          have henums : (st.b.addEnum en).enums =
              st.b.enums ++ [(en.name, en)] := by
            unfold Builder.addEnum setOrAppend
            unfold Builder.hasEnum at hhe
            rw [hhe]
            simp
          refine ⟨⟨fun _ _ => rfl, fun _ hx => hx, ?_, fun _ hx => Or.inl hx,
            ?_⟩, ?_, hnc,
            fun cV0 attr0 hee hfr hfa => absurd hee (by simp)⟩
          · intro x hx
            unfold Builder.hasEnum at *
            rw [henums, hasKey_append, hx]
            rfl
          · intro x c' hfresh hx
            have hx' : lookup1 st.b.classes x = some c' := hx
            rw [hasClass_false_lookup hfresh] at hx'
            exact absurd hx' (by simp)
          · intro e hee
            injection hee with hee
            subst hee
            show (st.b.addEnum en).hasEnum en.name = true
            unfold Builder.hasEnum
            rw [henums, hasKey_append]
            have : hasKey [(en.name, en)] en.name = true := by
              unfold hasKey
              rw [lookup1_singleton_self]
              rfl
            rw [this]
            simp
      | cls cV =>
        simp only [he] at h
        by_cases hc : st.b.hasClass cV.name = true
        · rw [if_pos hc] at h
          injection h with h
          subst h
          refine ⟨StepInv_refl view st.b, ?_, hnc, ?_⟩
          · intro e hee
            injection hee with hee
            subst hee
            exact hc
          · intro cV0 attr0 hee hfr hfa
            injection hee with hee
            injection hee with hee
            subst hee
            rw [hc] at hfr
            exact absurd hfr (by simp)
        · rw [if_neg hc] at h
          rw [Bool.not_eq_true] at hc
          have hname : ((lookup1 st.sch.classes cV.name).getD cV).name =
              cV.name := by
            cases hlk : lookup1 st.sch.classes cV.name with
            | none => rfl
            | some e0 =>
              show e0.name = cV.name
              exact hnc _ (lookup1_some_mem hlk)
          cases hf : filterAttrs view cNames
              ((lookup1 st.sch.classes cV.name).getD cV).attributes with
          | error u =>
            simp only [hf] at h
            exact absurd h (by simp)
          | ok attr =>
            simp only [hf] at h
            have hlookA : lookup1 st.b.classes cV.name = none :=
              hasClass_false_lookup hc
            have hb2 :
                ((st.b.addClass ((lookup1 st.sch.classes cV.name).getD cV)
                  ).setClassDef
                  ((lookup1 st.sch.classes cV.name).getD cV).name
                  { (lookup1 st.sch.classes cV.name).getD cV with
                      attributes := attr }).classes =
                st.b.classes ++
                  [(cV.name,
                    { (lookup1 st.sch.classes cV.name).getD cV with
                        attributes := attr })] := by
              unfold Builder.addClass Builder.setClassDef setOrAppend
              rw [hname]
              unfold hasKey
              rw [hlookA]
              simp only [Option.isSome_none, Bool.false_eq_true, if_false]
              exact setVal_append_fresh _ _ hlookA
            have hnc2 : NCc (st.sch.setClassDef
                ((lookup1 st.sch.classes cV.name).getD cV).name
                { (lookup1 st.sch.classes cV.name).getD cV with
                    attributes := attr }) := by
              exact NCc_setClassDef hnc rfl
            obtain ⟨f1, f2, f3⟩ := fold attr _ st' h hnc2
            -- the builder state entering the fold, described by hb2
            have hmid : lookup1
                (((st.b.addClass ((lookup1 st.sch.classes cV.name).getD cV)
                  ).setClassDef
                  ((lookup1 st.sch.classes cV.name).getD cV).name
                  { (lookup1 st.sch.classes cV.name).getD cV with
                      attributes := attr }).classes) cV.name =
                some { (lookup1 st.sch.classes cV.name).getD cV with
                    attributes := attr } := by
              rw [hb2, lookup1_append_right _ hlookA, lookup1_singleton_self]
            have huntouch : ∀ x, st.b.hasClass x = true →
                lookup1
                  (((st.b.addClass ((lookup1 st.sch.classes cV.name).getD cV)
                    ).setClassDef
                    ((lookup1 st.sch.classes cV.name).getD cV).name
                    { (lookup1 st.sch.classes cV.name).getD cV with
                        attributes := attr }).classes) x =
                  lookup1 st.b.classes x := by
              intro x hx
              rw [hb2]
              apply lookup1_append_left
              exact hx
            refine ⟨⟨?_, ?_, ?_, ?_, ?_⟩, ?_, f3, ?_⟩
            · -- untouched entries
              intro x hx
              rw [f1.1 x (by
                unfold Builder.hasClass hasKey
                rw [huntouch x hx]
                exact hx), huntouch x hx]
            · intro x hx
              exact f1.2.1 x hx
            · intro x hx
              exact f1.2.2.1 x hx
            · intro x hx
              exact f1.2.2.2.1 x hx
            · -- every class added by this call is range-closed
              intro x c' hfresh hx'
              by_cases hxn : x = cV.name
              · subst hxn
                have hEq := f1.1 cV.name (by
                  unfold Builder.hasClass hasKey
                  rw [hmid]
                  rfl)
                rw [hEq, hmid] at hx'
                injection hx' with hx'
                subst hx'
                intro q hq rnq hrnq
                have hpres := f2 q hq rnq hrnq
                obtain ⟨rn0, hrn0, hsome⟩ := filterAttrs_sound hf q hq
                rw [hrnq] at hrn0
                injection hrn0 with hrn0
                subst hrn0
                cases hge : view.getElement rnq with
                | none => rw [hge] at hsome; exact absurd hsome (by simp)
                | some e =>
                  cases e with
                  | cls c0 =>
                    obtain ⟨hn0, _⟩ := getElement_cls_spec hv hge
                    have hp1 : st'.b.hasClass c0.name = true := hpres _ hge
                    rw [hn0] at hp1
                    exact Or.inl hp1
                  | slt s0 => exact absurd hge (getElement_no_slt hs rnq)
                  | typ t0 =>
                    obtain ⟨hn0, _⟩ := getElement_typ_spec hv hge
                    have hp1 : st'.b.hasType t0.name = true := hpres _ hge
                    rw [hn0] at hp1
                    exact Or.inr (Or.inl hp1)
                  | enm e0 =>
                    obtain ⟨hn0, _⟩ := getElement_enm_spec hv hge
                    have hp1 : st'.b.hasEnum e0.name = true := hpres _ hge
                    rw [hn0] at hp1
                    exact Or.inr (Or.inr hp1)
              · exact f1.2.2.2.2 x c' (by
                  unfold Builder.hasClass hasKey
                  rw [hb2, lookup1_append]
                  rw [hasClass_false_lookup hfresh]
                  rw [lookup1_singleton_ne _ (fun hq => hxn hq.symm)]
                  rfl) hx'
            · -- the class itself is present in the final builder
              intro e hee
              injection hee with hee
              subst hee
              show st'.b.hasClass cV.name = true
              unfold Builder.hasClass hasKey
              rw [f1.1 cV.name (by
                unfold Builder.hasClass hasKey
                rw [hmid]
                rfl), hmid]
              rfl
            · -- the freshly added class carries exactly the filtered attrs
              intro cV0 attr0 hee hfr hfa
              injection hee with hee
              injection hee with hee
              subst hee
              rw [hf] at hfa
              injection hfa with hfa
              subst hfa
              rw [f1.1 cV.name (by
                unfold Builder.hasClass hasKey
                rw [hmid]
                rfl), hmid]

/-- A strict run (no abort anywhere) is in particular a normal
`profile()` run with the same result. -/
theorem profileRootsStrict_imp {view : Schema} {cNames : List String}
    {fuel : Nat} : ∀ (roots : List String) (st stF : PState),
    profileRootsStrict view cNames fuel roots st = some stF →
    profileRoots view cNames fuel roots st = some stF := by
  intro roots
  induction roots with
  | nil => intro st stF h; exact h
  | cons c rest ih =>
    intro st stF h
    unfold profileRootsStrict at h
    unfold profileRoots
    cases hr : profileGo view cNames fuel st c with
    | ok st' =>
      simp only [hr] at h
      simp only [hr]
      exact ih st' stF h
    | raised st' =>
      simp only [hr] at h
      exact absurd h (by simp)
    | nofuel =>
      simp only [hr] at h
      exact absurd h (by simp)

theorem profileRootsStrict_closed {view : Schema} {cNames : List String}
    (hv : NC view) (hs : view.slots = []) (fuel : Nat) :
    ∀ (roots : List String) (st stF : PState),
      profileRootsStrict view cNames fuel roots st = some stF →
      NCc st.sch →
      (∀ x c', lookup1 st.b.classes x = some c' → ClassClosed st.b c') →
      (∀ x c', lookup1 stF.b.classes x = some c' → ClassClosed stF.b c') := by
  intro roots
  induction roots with
  | nil =>
    intro st stF h hnc hinv
    injection h with h
    subst h
    exact hinv
  | cons c rest ih =>
    intro st stF h hnc hinv
    unfold profileRootsStrict at h
    cases hr : profileGo view cNames fuel st c with
    | ok st' =>
      simp only [hr] at h
      obtain ⟨s1, _, s3, _⟩ := profileGo_master hv hs fuel st c st' hr hnc
      apply ih st' stF h s3
      intro x c' hx
      by_cases hb : st.b.hasClass x = true
      · have hq := s1.1 x hb
        rw [hq] at hx
        exact ClassClosed_mono s1.clsMono s1.2.1 s1.2.2.1 (hinv x c' hx)
      · rw [Bool.not_eq_true] at hb
        exact s1.2.2.2.2 x c' hb hx
    | raised st' => simp only [hr] at h; exact absurd h (by simp)
    | nofuel => simp only [hr] at h; exact absurd h (by simp)

/-- C1 (amended): provided no traversal branch aborts on a dangling range
(expressed as the strict run succeeding) and no range can resolve to a
standalone slot (the schema has no slot category entries), `profile()`
returns that same output and every attribute range of every class in the
output schema is present in the output as a class, type or enum.  (The
original claim fails exactly when a branch aborts: see the
counterexample.) -/
theorem c1_closure (sch : Schema) (roots : List String) (fuel : Nat)
    (stF : PState) (hv : NC sch) (hs : sch.slots = [])
    (hrun : profileRootsStrict sch (computeCNames sch roots) fuel
      (computeCNames sch roots) ⟨sch, Builder.empty⟩ = some stF) :
    (Profiler.init sch roots).profile fuel =
      some (⟨stF.sch, sch, computeCNames sch roots⟩, stF.b) ∧
    (∀ x c', lookup1 stF.b.classes x = some c' → ClassClosed stF.b c') := by
  constructor
  · show Profiler.profile _ fuel = _
    unfold Profiler.profile Profiler.init
    simp only
    rw [profileRootsStrict_imp _ _ _ hrun]
  · refine profileRootsStrict_closed hv hs fuel _ _ _ hrun hv.1 ?_
    intro x c' hx
    exact absurd hx (by simp [lookup1, Builder.empty])

/-- Witness for the closure theorem at the two-rooted cycle schema. -/
theorem c1_closure_witness :
    (Profiler.init cycSchema ["A", "B"]).profile 5 =
      some (⟨cycSchema, cycSchema, computeCNames cycSchema ["A", "B"]⟩,
        Builder.mk
          [("A", ⟨"A", none,
              [("x", ⟨"x", some "B", true, false, false, false, none⟩)]⟩),
           ("B", ⟨"B", none,
              [("y", ⟨"y", some "A", true, false, false, false, none⟩)]⟩)]
          [] []) ∧
    ClassClosed
      (Builder.mk
        [("A", ⟨"A", none,
            [("x", ⟨"x", some "B", true, false, false, false, none⟩)]⟩),
         ("B", ⟨"B", none,
            [("y", ⟨"y", some "A", true, false, false, false, none⟩)]⟩)]
        [] [])
      ⟨"A", none, [("x", ⟨"x", some "B", true, false, false, false, none⟩)]⟩ :=
  ⟨(c1_closure cycSchema ["A", "B"] 5
      ⟨cycSchema,
        Builder.mk
          [("A", ⟨"A", none,
              [("x", ⟨"x", some "B", true, false, false, false, none⟩)]⟩),
           ("B", ⟨"B", none,
              [("y", ⟨"y", some "A", true, false, false, false, none⟩)]⟩)]
          [] []⟩
      (by decide) rfl rfl).1,
   (c1_closure cycSchema ["A", "B"] 5
      ⟨cycSchema,
        Builder.mk
          [("A", ⟨"A", none,
              [("x", ⟨"x", some "B", true, false, false, false, none⟩)]⟩),
           ("B", ⟨"B", none,
              [("y", ⟨"y", some "A", true, false, false, false, none⟩)]⟩)]
          [] []⟩
      (by decide) rfl rfl).2 "A" _ rfl⟩

theorem getElement_of_classKey {view : Schema} {rn : String}
    (hk : hasKey view.classes rn = true) :
    ∃ c, view.getElement rn = some (Element.cls c) := by
  unfold hasKey at hk
  cases hc : lookup1 view.classes rn with
  | none => rw [hc] at hk; simp at hk
  | some c =>
    refine ⟨c, ?_⟩
    unfold Schema.getElement
    rw [hc]

/-- C2 (amended): a slot whose range is a class outside the keep-set is
removed from the class's attribute map by the filtering loop whether or
not it is required (first conjunct: the loop's drop step does not consult
`required`); the class added by a successful `_profile` call carries
exactly the filtered attributes (second conjunct); and every type in the
output builder comes from the input builder or the view — no sentinel
type is ever synthesized (third conjunct). -/
theorem c2_filter_semantics {view : Schema} {cNames : List String}
    (hv : NC view) (hs : view.slots = [])
    (fuel : Nat) (st st' : PState) (name : String) (cV : ClassDef)
    (attr : List (String × SlotDef))
    (hel : view.getElement name = some (Element.cls cV))
    (hfresh : st.b.hasClass cV.name = false)
    (hnc : NCc st.sch)
    (hrun : profileGo view cNames fuel st name = PRes.ok st')
    (hfilter : filterAttrs view cNames
      ((lookup1 st.sch.classes cV.name).getD cV).attributes =
      Except.ok attr) :
    (∀ (n : String) (sd : SlotDef) (rest : List (String × SlotDef))
        (rn : String), sd.range = some rn → hasKey view.classes rn = true →
        cNames.contains rn = false →
        filterAttrs view cNames ((n, sd) :: rest) =
          filterAttrs view cNames rest) ∧
    lookup1 st'.b.classes cV.name =
      some { (lookup1 st.sch.classes cV.name).getD cV with
               attributes := attr } ∧
    (∀ x, st'.b.hasType x = true →
      st.b.hasType x = true ∨ hasKey view.types x = true) := by
  obtain ⟨s1, _, _, s4⟩ := profileGo_master hv hs fuel st name st' hrun hnc
  refine ⟨?_, s4 cV attr hel hfresh hfilter, s1.2.2.2.1⟩
  intro n sd rest rn hr hk hcont
  obtain ⟨c0, hge⟩ := getElement_of_classKey hk
  have hunf : filterAttrs view cNames ((n, sd) :: rest) =
      match sd.range with
      | none => Except.error ()
      | some rn0 =>
        match view.getElement rn0 with
        | none => Except.error ()
        | some _ =>
          if hasKey view.classes rn0 && !(cNames.contains rn0) then
            filterAttrs view cNames rest
          else
            match filterAttrs view cNames rest with
            | Except.error u => Except.error u
            | Except.ok l => Except.ok ((n, sd) :: l) := rfl
  rw [hunf]
  simp only [hr, hge, hk, hcont]
  simp

/-- Witness for the filter-semantics theorem on `reqSchema`: the required
slot `x` (range `B`, outside keep-set `['A']`) is simply dropped. -/
theorem c2_filter_semantics_witness :
    filterAttrs reqSchema ["A"] [("x", slotX)] = filterAttrs reqSchema ["A"] []
    ∧ lookup1 (Builder.mk [("A", ⟨"A", none, []⟩)] [] []).classes "A" =
        some ⟨"A", none, []⟩ :=
  ⟨(@c2_filter_semantics reqSchema ["A"] (by decide) rfl
      5 ⟨reqSchema, Builder.empty⟩
      ⟨reqSchemaPruned, Builder.mk [("A", ⟨"A", none, []⟩)] [] []⟩
      "A" ⟨"A", none, [("x", slotX)]⟩ [] rfl rfl (by decide) rfl rfl).1
      "x" slotX [] "B" rfl rfl rfl,
   (@c2_filter_semantics reqSchema ["A"] (by decide) rfl
      5 ⟨reqSchema, Builder.empty⟩
      ⟨reqSchemaPruned, Builder.mk [("A", ⟨"A", none, []⟩)] [] []⟩
      "A" ⟨"A", none, [("x", slotX)]⟩ [] rfl rfl (by decide) rfl rfl).2.1⟩

/-! ### Schema key preservation (C7) -/

theorem resKeys_trans {st0 st1 : PState} {r : PRes}
    (hk : st1.sch.classes.map Prod.fst = st0.sch.classes.map Prod.fst)
    (h : resKeys st1 r) : resKeys st0 r := by
  cases r with
  | ok st' =>
    have h' : st'.sch.classes.map Prod.fst = st1.sch.classes.map Prod.fst := h
    show st'.sch.classes.map Prod.fst = st0.sch.classes.map Prod.fst
    rw [h', hk]
  | raised st' =>
    have h' : st'.sch.classes.map Prod.fst = st1.sch.classes.map Prod.fst := h
    show st'.sch.classes.map Prod.fst = st0.sch.classes.map Prod.fst
    rw [h', hk]
  | nofuel => trivial

theorem profileGo_keys {view : Schema} {cNames : List String} :
    ∀ (fuel : Nat) (st : PState) (name : String),
      resKeys st (profileGo view cNames fuel st name) := by
  intro fuel
  induction fuel with
  | zero =>
    intro st name
    rw [profileGo_zero]
    trivial
  | succ fuel ih =>
    have fold : ∀ (st : PState) (l : List (String × SlotDef)) (r : PRes),
        resKeys st r →
        resKeys st (List.foldl (profStep view cNames fuel) r l) := by
      intro st l
      induction l with
      | nil => intro r hr; exact hr
      | cons p l ihl =>
        intro r hr
        rw [List.foldl_cons]
        apply ihl
        cases r with
        | ok st1 =>
          cases hrange : p.2.range with
          | none =>
            have : profStep view cNames fuel (PRes.ok st1) p = PRes.ok st1 := by
              unfold profStep; rw [hrange]
            rw [this]
            exact hr
          | some rn =>
            have : profStep view cNames fuel (PRes.ok st1) p =
                profileGo view cNames fuel st1 rn := by
              unfold profStep; rw [hrange]
            rw [this]
            exact resKeys_trans hr (ih st1 rn)
        | raised st1 => exact hr
        | nofuel => exact hr
    intro st name
    rw [profileGo_succ]
    cases he : view.getElement name with
    | none => simp only [he]; exact rfl
    | some el =>
      cases el with
      | slt s => simp only [he]; exact rfl
      | typ t =>
        simp only [he]
        by_cases hht : st.b.hasType t.name = true
        · rw [if_pos hht]; exact rfl
        · rw [if_neg hht]; exact rfl
      | enm en =>
        simp only [he]
        by_cases hhe : st.b.hasEnum en.name = true
        · rw [if_pos hhe]; exact rfl
        · rw [if_neg hhe]; exact rfl
      | cls cV =>
        simp only [he]
        by_cases hc : st.b.hasClass cV.name = true
        · rw [if_pos hc]; exact rfl
        · rw [if_neg hc]
          cases hf : filterAttrs view cNames
              ((lookup1 st.sch.classes cV.name).getD cV).attributes with
          | error u => simp only [hf]; exact rfl
          | ok attr =>
            simp only [hf]
            apply fold
            show (st.sch.setClassDef
                ((lookup1 st.sch.classes cV.name).getD cV).name
                { (lookup1 st.sch.classes cV.name).getD cV with
                    attributes := attr }).classes.map Prod.fst =
              st.sch.classes.map Prod.fst
            exact setVal_keys _ _ _

theorem profileRoots_keys {view : Schema} {cNames : List String}
    {fuel : Nat} : ∀ (roots : List String) (st stF : PState),
    profileRoots view cNames fuel roots st = some stF →
    stF.sch.classes.map Prod.fst = st.sch.classes.map Prod.fst := by
  intro roots
  induction roots with
  | nil =>
    intro st stF h
    injection h with h
    subst h
    rfl
  | cons c rest ih =>
    intro st stF h
    unfold profileRoots at h
    cases hr : profileGo view cNames fuel st c with
    | ok st' =>
      simp only [hr] at h
      have hk := @profileGo_keys view cNames fuel st c
      rw [hr] at hk
      rw [ih st' stF h]
      exact hk
    | raised st' =>
      simp only [hr] at h
      have hk := @profileGo_keys view cNames fuel st c
      rw [hr] at hk
      rw [ih st' stF h]
      exact hk
    | nofuel => simp only [hr] at h; exact absurd h (by simp)

/-- C7 (amended): `profile()` does mutate the profiler's schema (see the
counterexample), but the mutation is limited to attribute maps: the
class-name key list of the schema is preserved, and the view and keep-set
are untouched (first conjunct, for every run).  On the example schema a
repeated call is a fixed point: the second `profile()` returns the same
output builder and changes nothing further (second conjunct). -/
theorem c7_mutation :
    (∀ (p p' : Profiler) (b : Builder) (fuel : Nat),
      p.profile fuel = some (p', b) →
      p'.sch.classes.map Prod.fst = p.sch.classes.map Prod.fst ∧
      p'.view = p.view ∧ p'.cNames = p.cNames) ∧
    ((Profiler.init reqSchema ["A"]).profile 5 =
      some (⟨reqSchemaPruned, reqSchema, ["A"]⟩,
            ⟨[("A", ⟨"A", none, []⟩)], [], []⟩) ∧
     (Profiler.mk reqSchemaPruned reqSchema ["A"]).profile 5 =
      some (⟨reqSchemaPruned, reqSchema, ["A"]⟩,
            ⟨[("A", ⟨"A", none, []⟩)], [], []⟩)) := by
  constructor
  · intro p p' b fuel h
    unfold Profiler.profile at h
    cases hr : profileRoots p.view p.cNames fuel p.cNames
        ⟨p.sch, Builder.empty⟩ with
    | none => simp only [hr] at h; exact absurd h (by simp)
    | some st =>
      simp only [hr, Option.some.injEq, Prod.mk.injEq] at h
      obtain ⟨h1, _⟩ := h
      subst h1
      exact ⟨profileRoots_keys _ _ _ hr, rfl, rfl⟩
  · exact ⟨rfl, rfl⟩

/-- Witness: the general conjunct of `c7_mutation` applied to the run on
`reqSchema`. -/
theorem c7_mutation_witness :
    reqSchemaPruned.classes.map Prod.fst = reqSchema.classes.map Prod.fst ∧
    reqSchema = reqSchema ∧ (["A"] : List String) = ["A"] :=
  c7_mutation.1 (Profiler.init reqSchema ["A"])
    ⟨reqSchemaPruned, reqSchema, ["A"]⟩
    ⟨[("A", ⟨"A", none, []⟩)], [], []⟩ 5 rfl

/-! ### Skipped roots (C9) -/

theorem ancWalk_none (sch : Schema) (fuel : Nat) (acc : List String) :
    ancWalk sch fuel acc none = Except.ok acc := by
  cases fuel <;> rfl

theorem ancWalk_succ (sch : Schema) (fuel : Nat) (acc : List String)
    (p : String) :
    ancWalk sch (fuel+1) acc (some p) =
      (if acc.contains p then Except.ok acc
       else
        match lookup1 sch.classes p with
        | none => Except.error ()
        | some c => ancWalk sch fuel (acc ++ [p]) c.is_a) := rfl

/-- An unresolvable name makes `class_ancestors` raise. -/
theorem classAncestors_error {sch : Schema} {r : String}
    (h : lookup1 sch.classes r = none) :
    classAncestors sch r = Except.error () := by
  unfold classAncestors
  rw [ancWalk_succ]
  simp only [List.contains_nil, Bool.false_eq_true, if_false, h]

/-- Every name produced by the ancestor walk is either already in the
accumulator or resolves to a class. -/
theorem ancWalk_elems {sch : Schema} :
    ∀ (fuel : Nat) (acc : List String) (op : Option String) (l : List String),
      ancWalk sch fuel acc op = Except.ok l →
      ∀ x ∈ l, x ∈ acc ∨ (lookup1 sch.classes x).isSome = true := by
  intro fuel
  induction fuel with
  | zero =>
    intro acc op l h x hx
    cases op with
    | none =>
      rw [ancWalk_none] at h
      injection h with h
      subst h
      exact Or.inl hx
    | some p =>
      injection h with h
      subst h
      exact Or.inl hx
  | succ fuel ih =>
    intro acc op l h x hx
    cases op with
    | none =>
      rw [ancWalk_none] at h
      injection h with h
      subst h
      exact Or.inl hx
    | some p =>
      rw [ancWalk_succ] at h
      by_cases hcont : acc.contains p = true
      · rw [if_pos hcont] at h
        injection h with h
        subst h
        exact Or.inl hx
      · rw [if_neg hcont] at h
        cases hlk : lookup1 sch.classes p with
        | none => simp only [hlk] at h; exact absurd h (by simp)
        | some c =>
          simp only [hlk] at h
          rcases ih (acc ++ [p]) c.is_a l h x hx with h0 | h0
          · rcases List.mem_append.mp h0 with h1 | h1
            · exact Or.inl h1
            · have : x = p := by
                cases h1 with
                | head => rfl
                | tail _ h2 => exact absurd h2 (List.not_mem_nil x)
              subst this
              rw [hlk]
              exact Or.inr rfl
          · exact Or.inr h0

theorem addNew_mem : ∀ (xs acc : List String) (x : String),
    x ∈ addNew acc xs → x ∈ acc ∨ x ∈ xs := by
  intro xs
  induction xs with
  | nil => intro acc x hx; exact Or.inl hx
  | cons y ys ih =>
    intro acc x hx
    unfold addNew at hx
    rw [List.foldl_cons] at hx
    rcases ih _ x hx with h0 | h0
    · by_cases hy : acc.contains y = true
      · rw [if_pos hy] at h0
        exact Or.inl h0
      · rw [if_neg hy] at h0
        rcases List.mem_append.mp h0 with h1 | h1
        · exact Or.inl h1
        · have : x = y := by
            cases h1 with
            | head => rfl
            | tail _ h2 => exact absurd h2 (List.not_mem_nil x)
          subst this
          exact Or.inr (List.mem_cons_self x ys)
    · exact Or.inr (List.mem_cons_of_mem y h0)

/-- Every name in the computed keep-set resolves to a class of the view. -/
theorem computeCNames_classes (sch : Schema) (roots : List String)
    (x : String) (hx : x ∈ computeCNames sch roots) :
    (lookup1 sch.classes x).isSome = true := by
  unfold computeCNames at hx
  have main : ∀ (rs acc : List String),
      (∀ y ∈ acc, (lookup1 sch.classes y).isSome = true) →
      ∀ y ∈ rs.foldl
        (fun acc r =>
          match classAncestors sch r with
          | Except.error _ => acc
          | Except.ok as => addNew acc as) acc,
        (lookup1 sch.classes y).isSome = true := by
    intro rs
    induction rs with
    | nil => intro acc hacc y hy; exact hacc y hy
    | cons r rest ih =>
      intro acc hacc y hy
      rw [List.foldl_cons] at hy
      cases hca : classAncestors sch r with
      | error u =>
        simp only [hca] at hy
        exact ih acc hacc y hy
      | ok as =>
        simp only [hca] at hy
        refine ih _ ?_ y hy
        intro z hz
        rcases addNew_mem as acc z hz with h0 | h0
        · exact hacc z h0
        · rcases ancWalk_elems _ _ _ _ hca z h0 with h1 | h1
          · exact absurd h1 (List.not_mem_nil z)
          · exact h1
  exact main roots [] (fun y hy => absurd hy (List.not_mem_nil y)) x hx

theorem computeCNames_filter (sch : Schema) (roots : List String) (r : String)
    (h : lookup1 sch.classes r = none) :
    computeCNames sch roots =
      computeCNames sch (roots.filter (fun x => !(x == r))) := by
  unfold computeCNames
  have main : ∀ (rs acc : List String),
      rs.foldl
        (fun acc r0 =>
          match classAncestors sch r0 with
          | Except.error _ => acc
          | Except.ok as => addNew acc as) acc =
      (rs.filter (fun x => !(x == r))).foldl
        (fun acc r0 =>
          match classAncestors sch r0 with
          | Except.error _ => acc
          | Except.ok as => addNew acc as) acc := by
    intro rs
    induction rs with
    | nil => intro acc; rfl
    | cons x rest ih =>
      intro acc
      rw [List.foldl_cons, List.filter_cons]
      by_cases hx : (x == r) = true
      · have hxr : x = r := beq_iff_eq.mp hx
        subst hxr
        simp only [hx, Bool.not_true, Bool.false_eq_true, if_false]
        rw [classAncestors_error h]
        exact ih acc
      · rw [Bool.not_eq_true] at hx
        simp only [hx, Bool.not_false, if_true, List.foldl_cons]
        exact ih _
  exact main roots []

/-- C9: a root name that does not resolve to a class is skipped with a
warning: the profiler built from the root list is identical to the one
built without the unresolvable name (so the whole run still completes and
produces output for every remaining resolvable root), and the unresolvable
name never enters the keep-set. -/
theorem c9_skipped_root (sch : Schema) (roots : List String) (r : String)
    (h : lookup1 sch.classes r = none) :
    Profiler.init sch roots =
      Profiler.init sch (roots.filter (fun x => !(x == r))) ∧
    (computeCNames sch roots).contains r = false := by
  constructor
  · unfold Profiler.init
    rw [computeCNames_filter sch roots r h]
  · cases hc : (computeCNames sch roots).contains r
    · rfl
    · exfalso
      have hm : r ∈ computeCNames sch roots := List.elem_iff.mp hc
      have := computeCNames_classes sch roots r hm
      rw [h] at this
      simp at this

/-- Witness: `profile` over `reqSchema` with the unresolvable root
`Bad`. -/
theorem c9_skipped_root_witness :
    Profiler.init reqSchema ["Bad", "A"] =
      Profiler.init reqSchema
        (["Bad", "A"].filter (fun x => !(x == "Bad"))) ∧
    (computeCNames reqSchema ["Bad", "A"]).contains "Bad" = false :=
  c9_skipped_root reqSchema ["Bad", "A"] "Bad" rfl

/-! ### Graph construction is total (C8) -/

theorem addNode_contains {g : Graph} {n x : String}
    (hx : g.nodes.contains x = true) :
    (g.addNode n).nodes.contains x = true := by
  unfold Graph.addNode
  by_cases hn : g.nodes.contains n = true
  · rw [if_pos hn]; exact hx
  · rw [if_neg hn]
    simp only
    rw [List.elem_iff] at hx ⊢
    exact List.mem_append_left _ hx

theorem addEdge_contains {g : Graph} {a b x : String}
    (hx : g.nodes.contains x = true) :
    (g.addEdge a b).nodes.contains x = true := by
  unfold Graph.addEdge
  by_cases he : ((g.addNode a).addNode b).edges.contains (a, b) = true
  · rw [if_pos he]
    exact addNode_contains (addNode_contains hx)
  · rw [if_neg he]
    exact addNode_contains (addNode_contains hx)

theorem attrEdges_total {view : Schema} (cn : String) :
    ∀ (l : List (String × SlotDef)) (g : Graph),
      (∀ k, hasKey view.classes k = true → g.nodes.contains k = true) →
      ∃ g', attrEdges view cn l g = Except.ok g' ∧
        (∀ k, hasKey view.classes k = true → g'.nodes.contains k = true) := by
  intro l
  induction l with
  | nil => intro g hg; exact ⟨g, rfl, hg⟩
  | cons p rest ih =>
    intro g hg
    have hunf : attrEdges view cn (p :: rest) g =
        (match p.2.range with
         | none => attrEdges view cn rest g
         | some rn =>
           if hasKey view.classes rn then
             if g.nodes.contains rn then
               attrEdges view cn rest (g.addEdge cn rn)
             else Except.error ()
           else attrEdges view cn rest g) := rfl
    rw [hunf]
    cases hr : p.2.range with
    | none => exact ih g hg
    | some rn =>
      by_cases hk : hasKey view.classes rn = true
      · simp only [hk, if_true]
        have hin : g.nodes.contains rn = true := hg rn hk
        rw [if_pos hin]
        exact ih (g.addEdge cn rn)
          (fun k hkk => addEdge_contains (hg k hkk))
      · rw [Bool.not_eq_true] at hk
        simp only [hk, Bool.false_eq_true, if_false]
        exact ih g hg

theorem buildEdges_total {view : Schema} :
    ∀ (l : List (String × ClassDef)) (g : Graph),
      (∀ k, hasKey view.classes k = true → g.nodes.contains k = true) →
      ∃ g', buildEdges view l g = Except.ok g' := by
  intro l
  induction l with
  | nil => intro g hg; exact ⟨g, rfl⟩
  | cons p rest ih =>
    intro g hg
    have hunf : buildEdges view (p :: rest) g =
        (match lookup1 view.classes p.1 with
         | none => buildEdges view rest g
         | some cdef =>
           match attrEdges view p.1 cdef.attributes
             (match cdef.is_a with
              | some q => g.addEdge q p.1
              | none => g) with
           | Except.error u => Except.error u
           | Except.ok g2 => buildEdges view rest g2) := rfl
    rw [hunf]
    cases hc : lookup1 view.classes p.1 with
    | none => exact ih g hg
    | some cdef =>
      have hg1 : ∀ k, hasKey view.classes k = true →
          (match cdef.is_a with
           | some q => g.addEdge q p.1
           | none => g).nodes.contains k = true := by
        intro k hk
        cases cdef.is_a with
        | some q => exact addEdge_contains (hg k hk)
        | none => exact hg k hk
      obtain ⟨g2, hg2, hprop⟩ := attrEdges_total p.1 cdef.attributes _ hg1
      simp only [hg2]
      exact ih g2 hprop

/-- The in-graph Invalid-Reference check can never fire: graph
construction succeeds on every schema. -/
theorem buildGraph_total (view : Schema) :
    ∃ g, buildGraph view = Except.ok g := by
  unfold buildGraph
  apply buildEdges_total
  intro k hk
  rw [List.elem_iff]
  simp only
  exact (hasKey_iff_keys_mem view.classes k).mp hk

/-- C8 (amended): graph construction never raises the Invalid-Reference
error (ranges that are not classes are skipped; class-valued ranges are
always nodes), and when no path exists the call surfaces the NoPath
error from the path iterator rather than returning an empty list. -/
theorem c8_no_path_and_dead_check :
    (∀ view : Schema, ∃ g, buildGraph view = Except.ok g) ∧
    shortestPath twoAB "A" "B" = Except.error SPErr.noPath :=
  ⟨buildGraph_total, rfl⟩

/-! ### The self-referential inlined attribute is skipped (C5) -/

/-- C5 (amended): on `Self` with an inlined self-referential attribute,
the walker terminates for any fuel ≥ 2, any flags and any uuid cache, and
returns the truncated instance `{a: {}}` without raising: at depth one the
self-reference is in the ancestors of the enclosing class and the
attribute is skipped (after an error log). -/
theorem c5_self_truncated (skip populate : Bool) (fuel : Nat) (u : UuidSt)
    (h : 2 ≤ fuel) :
    walkClass (ctxOf (mkSelfSchema "Self" "a")) skip populate fuel u
      "Self" none = WR.ok (WVal.obj [("a", WVal.obj [])]) u := by
  obtain ⟨m, rfl⟩ : ∃ m, fuel = m + 2 := ⟨fuel - 2, by omega⟩
  have inner : ∀ (k : Nat) (u0 : UuidSt),
      walkClass (ctxOf (mkSelfSchema "Self" "a")) skip populate (k+1) u0
        "Self" (some "Self") = WR.ok (WVal.obj []) u0 := by
    intro k u0
    rfl
  have hstep : walkClass (ctxOf (mkSelfSchema "Self" "a")) skip populate
      (m+2) u "Self" none =
      wrapObj "a" false
        (walkClass (ctxOf (mkSelfSchema "Self" "a")) skip populate (m+1) u
          "Self" (some "Self")) := rfl
  rw [hstep, inner]
  exact rfl

/-- Witness: the truncation theorem at fuel 2 with empty cache. -/
theorem c5_self_truncated_witness :
    walkClass (ctxOf (mkSelfSchema "Self" "a")) false true 2 UuidSt.empty
      "Self" none = WR.ok (WVal.obj [("a", WVal.obj [])]) UuidSt.empty :=
  c5_self_truncated false true 2 UuidSt.empty (by omega)

/-! ### The unconditional slot-uri inspection (C10) -/

/-- In the not-inlined branch, an attribute whose range is not a class and
whose `slot_uri` is `None` or has no colon makes `_class_instance` fail
with the low-level AttributeError / IndexError, before any
range-appropriate value is assigned. -/
theorem walkPlain_bad_uri (ctx : WalkerCtx) (populate : Bool)
    (cName : String) (sd : SlotDef) (u : UuidSt)
    (hnone : sd.range.bind ctx.view.getElement = none)
    (hu : match sd.slot_uri with
          | none => True
          | some s => (splitColon s)[1]? = none) :
    walkPlain ctx populate cName sd u = Except.error () := by
  unfold walkPlain
  simp only [hnone]
  cases hsu : sd.slot_uri with
  | none => rfl
  | some s =>
    have hu' : (splitColon s)[1]? = none := by
      rw [hsu] at hu
      exact hu
    simp only [hu']

/-- C10: generating an instance of a class whose (non-inlined) attribute
has a primitive range but a missing or colon-free `slot_uri` fails with
the low-level error, for every primitive range, every such uri and any
fuel — no type-appropriate value is ever produced. -/
theorem c10_slot_uri (u : Option String) (rng : String) (fuel : Nat)
    (us : UuidSt)
    (hrng : rng ∈ ["integer", "float", "double", "boolean", "date",
      "datetime", "string"])
    (hu : match u with
          | none => True
          | some s => (splitColon s)[1]? = none)
    (hfuel : 1 ≤ fuel) :
    walkClass (ctxOf (mkUriSchema u rng)) false true fuel us "A" none =
      WR.err := by
  obtain ⟨m, rfl⟩ : ∃ m, fuel = m + 1 := ⟨fuel - 1, by omega⟩
  fin_cases hrng
  · rw [show walkClass (ctxOf (mkUriSchema u "integer")) false true
        (m+1) us "A" none =
        wrapPlain "p" (walkPlain (ctxOf (mkUriSchema u "integer")) true "A"
          ⟨"p", some "integer", true, false, false, false, u⟩ us) from rfl,
      walkPlain_bad_uri (ctxOf (mkUriSchema u "integer")) true "A"
        ⟨"p", some "integer", true, false, false, false, u⟩ us rfl hu]
    exact rfl
  · rw [show walkClass (ctxOf (mkUriSchema u "float")) false true
        (m+1) us "A" none =
        wrapPlain "p" (walkPlain (ctxOf (mkUriSchema u "float")) true "A"
          ⟨"p", some "float", true, false, false, false, u⟩ us) from rfl,
      walkPlain_bad_uri (ctxOf (mkUriSchema u "float")) true "A"
        ⟨"p", some "float", true, false, false, false, u⟩ us rfl hu]
    exact rfl
  · rw [show walkClass (ctxOf (mkUriSchema u "double")) false true
        (m+1) us "A" none =
        wrapPlain "p" (walkPlain (ctxOf (mkUriSchema u "double")) true "A"
          ⟨"p", some "double", true, false, false, false, u⟩ us) from rfl,
      walkPlain_bad_uri (ctxOf (mkUriSchema u "double")) true "A"
        ⟨"p", some "double", true, false, false, false, u⟩ us rfl hu]
    exact rfl
  · rw [show walkClass (ctxOf (mkUriSchema u "boolean")) false true
        (m+1) us "A" none =
        wrapPlain "p" (walkPlain (ctxOf (mkUriSchema u "boolean")) true "A"
          ⟨"p", some "boolean", true, false, false, false, u⟩ us) from rfl,
      walkPlain_bad_uri (ctxOf (mkUriSchema u "boolean")) true "A"
        ⟨"p", some "boolean", true, false, false, false, u⟩ us rfl hu]
    exact rfl
  · rw [show walkClass (ctxOf (mkUriSchema u "date")) false true
        (m+1) us "A" none =
        wrapPlain "p" (walkPlain (ctxOf (mkUriSchema u "date")) true "A"
          ⟨"p", some "date", true, false, false, false, u⟩ us) from rfl,
      walkPlain_bad_uri (ctxOf (mkUriSchema u "date")) true "A"
        ⟨"p", some "date", true, false, false, false, u⟩ us rfl hu]
    exact rfl
  · rw [show walkClass (ctxOf (mkUriSchema u "datetime")) false true
        (m+1) us "A" none =
        wrapPlain "p" (walkPlain (ctxOf (mkUriSchema u "datetime")) true "A"
          ⟨"p", some "datetime", true, false, false, false, u⟩ us) from rfl,
      walkPlain_bad_uri (ctxOf (mkUriSchema u "datetime")) true "A"
        ⟨"p", some "datetime", true, false, false, false, u⟩ us rfl hu]
    exact rfl
  · rw [show walkClass (ctxOf (mkUriSchema u "string")) false true
        (m+1) us "A" none =
        wrapPlain "p" (walkPlain (ctxOf (mkUriSchema u "string")) true "A"
          ⟨"p", some "string", true, false, false, false, u⟩ us) from rfl,
      walkPlain_bad_uri (ctxOf (mkUriSchema u "string")) true "A"
        ⟨"p", some "string", true, false, false, false, u⟩ us rfl hu]
    exact rfl

/-- Witness: slot_uri `None` with range `integer` at fuel 1. -/
theorem c10_slot_uri_witness :
    walkClass (ctxOf (mkUriSchema none "integer")) false true 1 UuidSt.empty
      "A" none = WR.err :=
  c10_slot_uri none "integer" 1 UuidSt.empty (by decide) trivial (by omega)


/-! ### Data-product flattening (C4): supporting lemmas -/

theorem setVal_setVal {α : Type} (l : List (String × α)) (k : String)
    (v w : α) : setVal (setVal l k v) k w = setVal l k w := by
  induction l with
  | nil => rfl
  | cons a l ih =>
    by_cases h : (a.1 == k) = true
    · simp [setVal, h, ih]
    · rw [Bool.not_eq_true] at h
      simp [setVal, h, ih]

theorem hasKey_singleton {α : Type} (k x : String) (v : α) :
    hasKey [(k, v)] x = (k == x) := by
  by_cases h : (k == x) = true
  · have hx : k = x := beq_iff_eq.mp h
    subst hx
    simp [hasKey, lookup1_singleton_self, h]
  · rw [Bool.not_eq_true] at h
    have hne : k ≠ x := by
      intro hc; subst hc; simp at h
    simp [hasKey, lookup1_singleton_ne _ hne, h]

theorem lookup1_setOrAppend_self {α : Type} (l : List (String × α))
    (k : String) (v : α) : lookup1 (setOrAppend l k v) k = some v := by
  unfold setOrAppend
  by_cases h : hasKey l k = true
  · rw [if_pos h]
    exact lookup1_setVal_self l k v h
  · rw [Bool.not_eq_true] at h
    rw [if_neg (by simp [h])]
    have hn : lookup1 l k = none := by
      unfold hasKey at h
      cases hl : lookup1 l k with
      | none => rfl
      | some w => rw [hl] at h; simp at h
    rw [lookup1_append_right _ hn]
    exact lookup1_singleton_self k v

theorem lookup1_setOrAppend_ne {α : Type} (l : List (String × α))
    {k x : String} (v : α) (h : k ≠ x) :
    lookup1 (setOrAppend l k v) x = lookup1 l x := by
  unfold setOrAppend
  by_cases hk : hasKey l k = true
  · rw [if_pos hk]
    exact lookup1_setVal_ne l v h
  · rw [Bool.not_eq_true] at hk
    rw [if_neg (by simp [hk])]
    rw [lookup1_append, lookup1_singleton_ne v h]
    cases lookup1 l x <;> rfl

theorem foldl_setOrAppend_preserve (slots : List SlotDef)
    (as : List (String × SlotDef)) (k : String)
    (h : ∀ s ∈ slots, s.name ≠ k) :
    lookup1 (slots.foldl (fun as s => setOrAppend as s.name s) as) k
      = lookup1 as k := by
  induction slots generalizing as with
  | nil => rfl
  | cons t rest ih =>
    rw [List.foldl_cons]
    rw [ih _ (fun s hs => h s (List.mem_cons_of_mem _ hs))]
    exact lookup1_setOrAppend_ne as t (h t (List.mem_cons_self t rest))

theorem foldl_setOrAppend_mem (slots : List SlotDef)
    (as : List (String × SlotDef))
    (hnd : (slots.map SlotDef.name).Nodup) (s : SlotDef) (hs : s ∈ slots) :
    lookup1 (slots.foldl (fun as s => setOrAppend as s.name s) as) s.name
      = some s := by
  induction slots generalizing as with
  | nil => exact absurd hs (List.not_mem_nil s)
  | cons t rest ih =>
    simp only [List.map_cons, List.nodup_cons] at hnd
    rw [List.foldl_cons]
    rcases List.mem_cons.mp hs with heq | hmem
    · subst heq
      have hnotin : ∀ u ∈ rest, u.name ≠ s.name := by
        intro u hu hc
        exact hnd.1 (hc ▸ List.mem_map_of_mem SlotDef.name hu)
      rw [foldl_setOrAppend_preserve rest _ s.name hnotin]
      exact lookup1_setOrAppend_self as s.name s
    · exact ih _ hnd.2 hmem

theorem foldl_setOrAppend_keys (slots : List SlotDef)
    (as : List (String × SlotDef))
    (hnd : (slots.map SlotDef.name).Nodup) :
    (slots.foldl (fun as s => setOrAppend as s.name s) as).map Prod.fst
      = as.map Prod.fst
        ++ (slots.map SlotDef.name).filter (fun n => !(hasKey as n)) := by
  induction slots generalizing as with
  | nil => simp
  | cons t rest ih =>
    simp only [List.map_cons, List.nodup_cons] at hnd
    rw [List.foldl_cons, ih _ hnd.2]
    by_cases hk : hasKey as t.name = true
    · have h1 : setOrAppend as t.name t = setVal as t.name t := by
        unfold setOrAppend; rw [if_pos hk]
      rw [h1, setVal_keys]
      have h3 : (rest.map SlotDef.name).filter
          (fun n => !(hasKey (setVal as t.name t) n))
          = (rest.map SlotDef.name).filter (fun n => !(hasKey as n)) := by
        apply List.filter_congr
        intro n _
        rw [hasKey_setVal]
      rw [h3, List.map_cons, List.filter_cons, hk]
      simp
    · rw [Bool.not_eq_true] at hk
      have h1 : setOrAppend as t.name t = as ++ [(t.name, t)] := by
        unfold setOrAppend; rw [if_neg (by simp [hk])]
      rw [h1]
      have h3 : (rest.map SlotDef.name).filter
          (fun n => !(hasKey (as ++ [(t.name, t)]) n))
          = (rest.map SlotDef.name).filter (fun n => !(hasKey as n)) := by
        apply List.filter_congr
        intro n hn
        rw [hasKey_append, hasKey_singleton]
        have hne : (t.name == n) = false := by
          apply beq_eq_false_iff_ne.mpr
          intro hc
          exact hnd.1 (hc ▸ hn)
        rw [hne, Bool.or_false]
      rw [h3, List.map_cons, List.filter_cons, hk]
      simp [List.append_assoc]

theorem dedupFrom_nil (seen : List String) : dedupFrom seen [] = [] := rfl

theorem dedupFrom_cons (seen : List String) (x : String) (xs : List String) :
    dedupFrom seen (x :: xs)
      = if seen.contains x then dedupFrom seen xs
        else x :: dedupFrom (seen ++ [x]) xs := rfl

theorem dedup_foldl_acc (l : List String) :
    ∀ acc, l.foldl (fun a x => if a.contains x then a else a ++ [x]) acc
      = acc ++ dedupFrom acc l := by
  induction l with
  | nil => intro acc; simp [dedupFrom_nil]
  | cons x xs ih =>
    intro acc
    rw [List.foldl_cons, dedupFrom_cons]
    by_cases h : acc.contains x = true
    · rw [if_pos h, if_pos h, ih]
    · rw [if_neg h, if_neg h, ih, List.append_assoc]
      rfl

theorem dedupKeep_eq_dedupFrom (l : List String) :
    dedupKeep l = dedupFrom [] l := by
  unfold dedupKeep
  rw [dedup_foldl_acc]
  simp

theorem mem_dedupFrom (l : List String) :
    ∀ (seen : List String) (y : String),
      y ∈ dedupFrom seen l ↔ (y ∈ l ∧ ¬ y ∈ seen) := by
  induction l with
  | nil => intro seen y; simp [dedupFrom_nil]
  | cons x xs ih =>
    intro seen y
    rw [dedupFrom_cons]
    by_cases h : seen.contains x = true
    · have hx : x ∈ seen := List.elem_iff.mp h
      rw [if_pos h, ih seen y]
      constructor
      · rintro ⟨h1, h2⟩
        exact ⟨List.mem_cons_of_mem x h1, h2⟩
      · rintro ⟨h1, h2⟩
        rcases List.mem_cons.mp h1 with rfl | hm
        · exact absurd hx h2
        · exact ⟨hm, h2⟩
    · have hx : ¬ x ∈ seen := fun hc => h (List.elem_iff.mpr hc)
      rw [if_neg h]
      have hq : ∀ z : String, z ∈ seen ++ [x] ↔ (z ∈ seen ∨ z = x) := by
        intro z; simp
      constructor
      · intro h1
        rcases List.mem_cons.mp h1 with rfl | hm
        · exact ⟨List.mem_cons_self y xs, hx⟩
        · have hm2 := (ih (seen ++ [x]) y).mp hm
          exact ⟨List.mem_cons_of_mem x hm2.1,
            fun hc => hm2.2 ((hq y).mpr (Or.inl hc))⟩
      · rintro ⟨h1, h2⟩
        rcases List.mem_cons.mp h1 with rfl | hm
        · exact List.mem_cons_self y _
        · by_cases hyx : y = x
          · subst hyx
            exact List.mem_cons_self y _
          · apply List.mem_cons_of_mem
            apply (ih (seen ++ [x]) y).mpr
            refine ⟨hm, fun hc => ?_⟩
            rcases (hq y).mp hc with hc1 | hc1
            · exact h2 hc1
            · exact hyx hc1

theorem nodup_dedupFrom (l : List String) :
    ∀ seen, (dedupFrom seen l).Nodup := by
  induction l with
  | nil => intro seen; exact List.nodup_nil
  | cons x xs ih =>
    intro seen
    rw [dedupFrom_cons]
    by_cases h : seen.contains x = true
    · rw [if_pos h]; exact ih seen
    · rw [if_neg h]
      refine List.nodup_cons.mpr ⟨?_, ih (seen ++ [x])⟩
      intro hc
      have hm := (mem_dedupFrom xs (seen ++ [x]) x).mp hc
      exact hm.2 (List.mem_append.mpr (Or.inr (List.mem_singleton.mpr rfl)))

theorem dedupFrom_append_nodup (xs : List String) :
    ∀ (seen ys : List String), xs.Nodup → (∀ x ∈ xs, ¬ x ∈ seen) →
      dedupFrom seen (xs ++ ys) = xs ++ dedupFrom (seen ++ xs) ys := by
  induction xs with
  | nil =>
    intro seen ys _ _
    simp
  | cons x xs ih =>
    intro seen ys hnd hdis
    simp only [List.nodup_cons] at hnd
    rw [List.cons_append, dedupFrom_cons]
    have hx : ¬ seen.contains x = true := by
      intro hc
      exact hdis x (List.mem_cons_self x xs) (List.elem_iff.mp hc)
    rw [if_neg hx]
    have hdis2 : ∀ y ∈ xs, ¬ y ∈ seen ++ [x] := by
      intro y hy
      simp only [List.mem_append, List.mem_singleton]
      rintro (hc | hc)
      · exact hdis y (List.mem_cons_of_mem x hy) hc
      · exact hnd.1 (hc ▸ hy)
    rw [ih (seen ++ [x]) ys hnd.2 hdis2]
    have hsx : (seen ++ [x]) ++ xs = seen ++ x :: xs := by simp
    rw [hsx]
    rfl

theorem findSomeCongr {α β : Type} (l : List α) (f g : α → Option β)
    (h : ∀ a ∈ l, f a = g a) : l.findSome? f = l.findSome? g := by
  induction l with
  | nil => rfl
  | cons a l ih =>
    rw [List.findSome?_cons, List.findSome?_cons, h a (List.mem_cons_self a l)]
    cases hga : g a with
    | none =>
      simp only [hga]
      exact ih (fun x hx => h x (List.mem_cons_of_mem a hx))
    | some b => simp only [hga]

theorem flatMapCongr {α β : Type} (l : List α) (f g : α → List β)
    (h : ∀ a ∈ l, f a = g a) : l.flatMap f = l.flatMap g := by
  induction l with
  | nil => rfl
  | cons a l ih =>
    rw [List.flatMap_cons, List.flatMap_cons, h a (List.mem_cons_self a l),
      ih (fun x hx => h x (List.mem_cons_of_mem a hx))]

theorem filterMapCongr {α β : Type} (l : List α) (f g : α → Option β)
    (h : ∀ a ∈ l, f a = g a) : l.filterMap f = l.filterMap g := by
  induction l with
  | nil => rfl
  | cons a l ih =>
    rw [List.filterMap_cons, List.filterMap_cons, h a (List.mem_cons_self a l),
      ih (fun x hx => h x (List.mem_cons_of_mem a hx))]

theorem findSome_isSome {α β : Type} (l : List α) (f : α → Option β)
    (a : α) (ha : a ∈ l) (h : (f a).isSome = true) :
    (l.findSome? f).isSome = true := by
  induction l with
  | nil => exact absurd ha (List.not_mem_nil a)
  | cons b l ih =>
    rw [List.findSome?_cons]
    cases hb : f b with
    | some c => simp
    | none =>
      simp only [hb]
      rcases List.mem_cons.mp ha with rfl | hmem
      · rw [hb] at h; simp at h
      · exact ih hmem

theorem findSome_exists {α β : Type} (l : List α) (f : α → Option β)
    (b : β) (h : l.findSome? f = some b) : ∃ a ∈ l, f a = some b := by
  induction l with
  | nil => rw [List.findSome?_nil] at h; exact absurd h (by simp)
  | cons a l ih =>
    rw [List.findSome?_cons] at h
    cases ha : f a with
    | some c =>
      simp only [ha] at h
      exact ⟨a, List.mem_cons_self a l, by rw [ha, h]⟩
    | none =>
      simp only [ha] at h
      obtain ⟨x, hx, hfx⟩ := ih h
      exact ⟨x, List.mem_cons_of_mem a hx, hfx⟩

theorem ancWalk_congr (s1 s2 : Schema)
    (h : ∀ k, (lookup1 s1.classes k).map ClassDef.is_a
            = (lookup1 s2.classes k).map ClassDef.is_a) :
    ∀ (fuel : Nat) (acc : List String) (op : Option String),
      ancWalk s1 fuel acc op = ancWalk s2 fuel acc op := by
  intro fuel
  induction fuel with
  | zero => intro acc op; cases op <;> rfl
  | succ m ih =>
    intro acc op
    cases op with
    | none => rfl
    | some p =>
      have hp := h p
      cases h1 : lookup1 s1.classes p with
      | none =>
        cases h2 : lookup1 s2.classes p with
        | none => simp only [ancWalk, h1, h2]
        | some c2 => rw [h1, h2] at hp; simp at hp
      | some c1 =>
        cases h2 : lookup1 s2.classes p with
        | none => rw [h1, h2] at hp; simp at hp
        | some c2 =>
          rw [h1, h2] at hp
          have hia : c1.is_a = c2.is_a := by simpa using hp
          simp only [ancWalk, h1, h2, hia, ih]

theorem classAncestors_congr (s1 s2 : Schema)
    (hlen : s1.classes.length = s2.classes.length)
    (h : ∀ k, (lookup1 s1.classes k).map ClassDef.is_a
            = (lookup1 s2.classes k).map ClassDef.is_a) (n : String) :
    classAncestors s1 n = classAncestors s2 n := by
  unfold classAncestors
  rw [hlen]
  exact ancWalk_congr s1 s2 h _ _ _

theorem inducedDef_name (sv : Schema) (hNCA : NCA sv) (ancs : List String)
    (n : String) (sd : SlotDef) (h : inducedDef sv ancs n = some sd) :
    sd.name = n := by
  unfold inducedDef at h
  obtain ⟨a, ha, hfa⟩ := findSome_exists _ _ _ h
  cases hla : lookup1 sv.classes a with
  | none =>
    simp only [hla] at hfa
    exact absurd hfa (by simp)
  | some c =>
    simp only [hla] at hfa
    exact hNCA (a, c) (lookup1_some_mem hla) (n, sd) (lookup1_some_mem hfa)

theorem inducedDef_isSome (sv : Schema) (ancs : List String) (n : String)
    (h : n ∈ inducedNames sv ancs) : (inducedDef sv ancs n).isSome = true := by
  unfold inducedNames at h
  rw [dedupKeep_eq_dedupFrom, mem_dedupFrom] at h
  obtain ⟨a, ha, hn⟩ := List.mem_flatMap.mp h.1
  cases hla : lookup1 sv.classes a with
  | none => simp only [hla] at hn; exact absurd hn (List.not_mem_nil n)
  | some c =>
    simp only [hla] at hn
    have hk : hasKey c.attributes n = true := (hasKey_iff_keys_mem _ _).mpr hn
    unfold inducedDef
    apply findSome_isSome _ _ a ha
    simp only [hla]
    unfold hasKey at hk
    exact hk

theorem filterMap_names (g : String → Option SlotDef) (names : List String)
    (h : ∀ n ∈ names, ∃ sd, g n = some sd ∧ sd.name = n) :
    (names.filterMap g).map SlotDef.name = names := by
  induction names with
  | nil => rfl
  | cons n rest ih =>
    obtain ⟨sd, hsd, hname⟩ := h n (List.mem_cons_self n rest)
    rw [List.filterMap_cons]
    simp only [hsd]
    rw [List.map_cons, hname, ih (fun m hm => h m (List.mem_cons_of_mem n hm))]

theorem inducedNames_decomp (sv : Schema) (cn : String) (cdef : ClassDef)
    (ancsT : List String) (hcd : lookup1 sv.classes cn = some cdef)
    (hnd : (cdef.attributes.map Prod.fst).Nodup) :
    ∃ ext, inducedNames sv (cn :: ancsT)
        = cdef.attributes.map Prod.fst ++ ext ∧
      ext.Nodup ∧ (∀ y ∈ ext, ¬ y ∈ cdef.attributes.map Prod.fst) := by
  refine ⟨dedupFrom (cdef.attributes.map Prod.fst)
    (ancsT.flatMap (fun a => match lookup1 sv.classes a with
      | some c => c.attributes.map (fun p => p.1)
      | none => [])), ?_, nodup_dedupFrom _ _, ?_⟩
  · unfold inducedNames
    rw [List.flatMap_cons]
    simp only [hcd]
    rw [dedupKeep_eq_dedupFrom,
      dedupFrom_append_nodup _ [] _ hnd (fun x _ hc => List.not_mem_nil x hc),
      List.nil_append]
  · intro y hy
    exact ((mem_dedupFrom _ _ _).mp hy).2

theorem dpGo_spec (sv : Schema) (cn : String) (cdef : ClassDef)
    (hcd : lookup1 sv.classes cn = some cdef) :
    ∀ (post : List String) (a : List (String × SlotDef)),
      post.Nodup →
      (∀ n ∈ post, ∀ sd r l, lookup1 a n = some sd → sd.range = some r →
        classAncestors sv r = Except.ok l → ¬ cn ∈ l) →
      ∃ aF, dpRewriteGo cn post
          (sv.setClassDef cn ⟨cdef.name, cdef.is_a, a⟩)
          = sv.setClassDef cn ⟨cdef.name, cdef.is_a, aF⟩ ∧
        aF.map Prod.fst = a.map Prod.fst ∧
        (∀ n ∈ post, lookup1 aF n = (lookup1 a n).map (dpRewriteSpec sv)) ∧
        (∀ n, ¬ n ∈ post → lookup1 aF n = lookup1 a n) := by
  intro post
  induction post with
  | nil =>
    intro a _ _
    exact ⟨a, rfl, rfl, fun n hn => absurd hn (List.not_mem_nil n),
      fun n _ => rfl⟩
  | cons n rest ih =>
    intro a hnd hav
    simp only [List.nodup_cons] at hnd
    have hks : (lookup1 sv.classes cn).isSome = true := by rw [hcd]; rfl
    have hlc : lookup1 (sv.setClassDef cn
        (⟨cdef.name, cdef.is_a, a⟩ : ClassDef)).classes cn
        = some ⟨cdef.name, cdef.is_a, a⟩ :=
      lookup1_setVal_self _ _ _ hks
    have hisa : ∀ k,
        (lookup1 (sv.setClassDef cn
            (⟨cdef.name, cdef.is_a, a⟩ : ClassDef)).classes k).map
          ClassDef.is_a
        = (lookup1 sv.classes k).map ClassDef.is_a := by
      intro k
      by_cases hk : cn = k
      · subst hk
        rw [hlc, hcd]
        rfl
      · show (lookup1 (setVal sv.classes cn _) k).map _ = _
        rw [lookup1_setVal_ne _ _ hk]
    have hanc_eq : ∀ r, classAncestors
        (sv.setClassDef cn (⟨cdef.name, cdef.is_a, a⟩ : ClassDef)) r
        = classAncestors sv r := by
      intro r
      apply classAncestors_congr
      · show (setVal sv.classes cn _).length = sv.classes.length
        have hsk := congrArg List.length
          (setVal_keys sv.classes cn (⟨cdef.name, cdef.is_a, a⟩ : ClassDef))
        simpa using hsk
      · exact hisa
    have hstep : dpRewriteGo cn (n :: rest)
        (sv.setClassDef cn (⟨cdef.name, cdef.is_a, a⟩ : ClassDef))
        = dpRewriteGo cn rest
            (dpStep cn (sv.setClassDef cn
              (⟨cdef.name, cdef.is_a, a⟩ : ClassDef)) n) := rfl
    cases hna : lookup1 a n with
    | none =>
      have hdp : dpStep cn (sv.setClassDef cn
          (⟨cdef.name, cdef.is_a, a⟩ : ClassDef)) n
          = sv.setClassDef cn (⟨cdef.name, cdef.is_a, a⟩ : ClassDef) := by
        unfold dpStep
        simp only [hlc, hna]
      obtain ⟨aF, h1, h2, h3, h4⟩ := ih a hnd.2
        (fun m hm => hav m (List.mem_cons_of_mem n hm))
      refine ⟨aF, ?_, h2, ?_, ?_⟩
      · rw [hstep, hdp, h1]
      · intro m hm
        rcases List.mem_cons.mp hm with rfl | hmem
        · rw [h4 m hnd.1, hna]
          rfl
        · exact h3 m hmem
      · intro m hm
        exact h4 m (fun hc => hm (List.mem_cons_of_mem n hc))
    | some sd =>
      cases hrg : sd.range with
      | none =>
        have hspec : dpRewriteSpec sv sd = sd := by
          unfold dpRewriteSpec
          rw [hrg]
        have hdp : dpStep cn (sv.setClassDef cn
            (⟨cdef.name, cdef.is_a, a⟩ : ClassDef)) n
            = sv.setClassDef cn (⟨cdef.name, cdef.is_a, a⟩ : ClassDef) := by
          unfold dpStep
          simp only [hlc, hna, hrg]
        obtain ⟨aF, h1, h2, h3, h4⟩ := ih a hnd.2
          (fun m hm => hav m (List.mem_cons_of_mem n hm))
        refine ⟨aF, ?_, h2, ?_, ?_⟩
        · rw [hstep, hdp, h1]
        · intro m hm
          rcases List.mem_cons.mp hm with rfl | hmem
          · rw [h4 m hnd.1, hna]
            show some sd = some (dpRewriteSpec sv sd)
            rw [hspec]
          · exact h3 m hmem
        · intro m hm
          exact h4 m (fun hc => hm (List.mem_cons_of_mem n hc))
      | some r =>
        have hgid : getIdentifierSlotE
            (sv.setClassDef cn (⟨cdef.name, cdef.is_a, a⟩ : ClassDef)) r
            = getIdentifierSlotE sv r := by
          unfold getIdentifierSlotE
          rw [hanc_eq r]
          cases hancr : classAncestors sv r with
          | error u => rfl
          | ok l =>
            have hcnl : ¬ cn ∈ l :=
              hav n (List.mem_cons_self n rest) sd r l hna hrg hancr
            have hlk : ∀ k ∈ l, lookup1 (sv.setClassDef cn
                (⟨cdef.name, cdef.is_a, a⟩ : ClassDef)).classes k
                = lookup1 sv.classes k := by
              intro k hk
              show lookup1 (setVal sv.classes cn _) k = _
              exact lookup1_setVal_ne _ _ (fun hc => hcnl (hc ▸ hk))
            have hIN : inducedNames (sv.setClassDef cn
                (⟨cdef.name, cdef.is_a, a⟩ : ClassDef)) l
                = inducedNames sv l := by
              unfold inducedNames
              congr 1
              apply flatMapCongr
              intro x hx
              rw [hlk x hx]
            have hID : ∀ m, inducedDef (sv.setClassDef cn
                (⟨cdef.name, cdef.is_a, a⟩ : ClassDef)) l m
                = inducedDef sv l m := by
              intro m
              unfold inducedDef
              apply findSomeCongr
              intro x hx
              rw [hlk x hx]
            show Except.ok (List.find? (fun s => s.identifier)
                (List.filterMap (inducedDef (sv.setClassDef cn
                    (⟨cdef.name, cdef.is_a, a⟩ : ClassDef)) l)
                  (inducedNames (sv.setClassDef cn
                    (⟨cdef.name, cdef.is_a, a⟩ : ClassDef)) l)))
              = Except.ok (List.find? (fun s => s.identifier)
                (List.filterMap (inducedDef sv l) (inducedNames sv l)))
            rw [hIN, filterMapCongr (inducedNames sv l) _ _
              (fun x _ => hID x)]
        cases hid : getIdentifierSlotE sv r with
        | error u =>
          have hspec : dpRewriteSpec sv sd = sd := by
            unfold dpRewriteSpec
            rw [hrg]
            simp only [hid]
          have hdp : dpStep cn (sv.setClassDef cn
              (⟨cdef.name, cdef.is_a, a⟩ : ClassDef)) n
              = sv.setClassDef cn (⟨cdef.name, cdef.is_a, a⟩ : ClassDef) := by
            unfold dpStep
            simp only [hlc, hna, hrg, hgid, hid]
          obtain ⟨aF, h1, h2, h3, h4⟩ := ih a hnd.2
            (fun m hm => hav m (List.mem_cons_of_mem n hm))
          refine ⟨aF, ?_, h2, ?_, ?_⟩
          · rw [hstep, hdp, h1]
          · intro m hm
            rcases List.mem_cons.mp hm with rfl | hmem
            · rw [h4 m hnd.1, hna]
              show some sd = some (dpRewriteSpec sv sd)
              rw [hspec]
            · exact h3 m hmem
          · intro m hm
            exact h4 m (fun hc => hm (List.mem_cons_of_mem n hc))
        | ok oids =>
          cases oids with
          | none =>
            have hspec : dpRewriteSpec sv sd = sd := by
              unfold dpRewriteSpec
              rw [hrg]
              simp only [hid]
            have hdp : dpStep cn (sv.setClassDef cn
                (⟨cdef.name, cdef.is_a, a⟩ : ClassDef)) n
                = sv.setClassDef cn (⟨cdef.name, cdef.is_a, a⟩ : ClassDef) := by
              unfold dpStep
              simp only [hlc, hna, hrg, hgid, hid]
            obtain ⟨aF, h1, h2, h3, h4⟩ := ih a hnd.2
              (fun m hm => hav m (List.mem_cons_of_mem n hm))
            refine ⟨aF, ?_, h2, ?_, ?_⟩
            · rw [hstep, hdp, h1]
            · intro m hm
              rcases List.mem_cons.mp hm with rfl | hmem
              · rw [h4 m hnd.1, hna]
                show some sd = some (dpRewriteSpec sv sd)
                rw [hspec]
              · exact h3 m hmem
            · intro m hm
              exact h4 m (fun hc => hm (List.mem_cons_of_mem n hc))
          | some ids =>
            have hspec : dpRewriteSpec sv sd = { sd with range := ids.range } := by
              unfold dpRewriteSpec
              rw [hrg]
              simp only [hid]
            have hdp : dpStep cn (sv.setClassDef cn
                (⟨cdef.name, cdef.is_a, a⟩ : ClassDef)) n
                = sv.setClassDef cn
                    (⟨cdef.name, cdef.is_a,
                      setVal a n { sd with range := ids.range }⟩ : ClassDef) := by
              unfold dpStep
              simp only [hlc, hna, hrg, hgid, hid]
              show (sv.setClassDef cn
                  (⟨cdef.name, cdef.is_a, a⟩ : ClassDef)).setClassDef cn
                  (⟨cdef.name, cdef.is_a,
                    setVal a n { sd with range := ids.range }⟩ : ClassDef)
                = _
              unfold Schema.setClassDef
              simp only [setVal_setVal]
            have hnsome : (lookup1 a n).isSome = true := by rw [hna]; rfl
            have havrest : ∀ m ∈ rest, ∀ sd' r' l',
                lookup1 (setVal a n { sd with range := ids.range }) m = some sd' →
                sd'.range = some r' → classAncestors sv r' = Except.ok l' →
                ¬ cn ∈ l' := by
              intro m hm sd' r' l' hl' hr' hancl'
              rw [lookup1_setVal_ne a _
                (fun hc : n = m => hnd.1 (hc ▸ hm))] at hl'
              exact hav m (List.mem_cons_of_mem n hm) sd' r' l' hl' hr' hancl'
            obtain ⟨aF, h1, h2, h3, h4⟩ :=
              ih (setVal a n { sd with range := ids.range }) hnd.2 havrest
            refine ⟨aF, ?_, ?_, ?_, ?_⟩
            · rw [hstep, hdp, h1]
            · rw [h2, setVal_keys]
            · intro m hm
              rcases List.mem_cons.mp hm with rfl | hmem
              · rw [h4 m hnd.1, lookup1_setVal_self a m _ hnsome, hna]
                show some { sd with range := ids.range }
                  = some (dpRewriteSpec sv sd)
                rw [hspec]
              · rw [h3 m hmem, lookup1_setVal_ne a _
                  (fun hc : n = m => hnd.1 (hc ▸ hmem))]
            · intro m hm
              have hmn : ¬ (n = m) := fun hc =>
                hm (by rw [← hc]; exact List.mem_cons_self n rest)
              rw [h4 m (fun hc => hm (List.mem_cons_of_mem n hc)),
                lookup1_setVal_ne a _ hmn]

theorem lookup1_delmap (l : List (String × ClassDef)) (k cn : String)
    (hne : ¬ (cn = k)) :
    lookup1 ((l.filter (fun p => !(p.1 == k))).map (fun p =>
        if p.2.is_a == some k then (p.1, { p.2 with is_a := none }) else p)) cn
      = (lookup1 l cn).map (fun c =>
          if c.is_a == some k then { c with is_a := none } else c) := by
  induction l with
  | nil => rfl
  | cons a l ih =>
    rw [List.filter_cons]
    by_cases hak : (a.1 == k) = true
    · simp only [hak, Bool.not_true, Bool.false_eq_true, if_false]
      rw [ih, lookup1_cons]
      have hacn : (a.1 == cn) = false := by
        apply beq_eq_false_iff_ne.mpr
        intro hc
        exact hne (hc ▸ beq_iff_eq.mp hak)
      rw [hacn]
      simp
    · have hak2 : (a.1 == k) = false := by
        cases h2 : (a.1 == k)
        · rfl
        · exact absurd h2 hak
      simp only [hak2, Bool.not_false, if_true]
      rw [List.map_cons]
      by_cases hia : (a.2.is_a == some k) = true
      · simp only [hia, if_true]
        rw [lookup1_cons, lookup1_cons]
        by_cases hacn : (a.1 == cn) = true
        · simp only [hacn, if_true]
          show _ = (some a.2).map _
          simp only [Option.map_some']
          rw [if_pos hia]
        · simp only [hacn, Bool.false_eq_true, if_false]
          exact ih
      · have hia2 : (a.2.is_a == some k) = false := by
          cases h2 : (a.2.is_a == some k)
          · rfl
          · exact absurd h2 hia
        simp only [hia2, Bool.false_eq_true, if_false]
        rw [lookup1_cons, lookup1_cons]
        by_cases hacn : (a.1 == cn) = true
        · simp only [hacn, if_true]
          show _ = (some a.2).map _
          simp only [Option.map_some']
          rw [if_neg (by rw [hia2]; simp)]
        · simp only [hacn, Bool.false_eq_true, if_false]
          exact ih

theorem cleanKeeps (cn : String) :
    ∀ (ks : List String) (s : Schema) (nm : String) (ia : Option String)
      (attrs : List (String × SlotDef)),
      lookup1 s.classes cn = some ⟨nm, ia, attrs⟩ →
      (ia = none ∨ ∃ P, ia = some P ∧ P ∈ ks ∧ ¬ (P = cn)) →
      lookup1 (ks.foldl (fun s k => if [cn].contains k then s
          else deleteClass s k) s).classes cn = some ⟨nm, none, attrs⟩ := by
  intro ks
  induction ks with
  | nil =>
    intro s nm ia attrs hl hx
    rcases hx with rfl | ⟨P, hP, hPm, _⟩
    · exact hl
    · exact absurd hPm (List.not_mem_nil P)
  | cons k ks ih =>
    intro s nm ia attrs hl hx
    rw [List.foldl_cons]
    by_cases hk : ([cn].contains k) = true
    · rw [if_pos hk]
      have hkcn : k = cn := by
        have hm := List.elem_iff.mp hk
        simpa using hm
      apply ih s nm ia attrs hl
      rcases hx with rfl | ⟨P, hP, hPm, hPne⟩
      · exact Or.inl rfl
      · refine Or.inr ⟨P, hP, ?_, hPne⟩
        rcases List.mem_cons.mp hPm with heq | hm
        · exact absurd (heq.trans hkcn) hPne
        · exact hm
    · rw [if_neg hk]
      have hcnk : ¬ (cn = k) := by
        intro hc
        apply hk
        rw [hc]
        have : k ∈ [k] := List.mem_singleton.mpr rfl
        exact List.elem_iff.mpr this
      have hdel : lookup1 (deleteClass s k).classes cn
          = some ⟨nm, (if (ia == some k) = true then none else ia), attrs⟩ := by
        unfold deleteClass
        show lookup1 ((s.classes.filter (fun p => !(p.1 == k))).map (fun p =>
          if p.2.is_a == some k then (p.1, { p.2 with is_a := none })
          else p)) cn = _
        rw [lookup1_delmap s.classes k cn hcnk, hl]
        by_cases hia : (ia == some k) = true
        · rw [if_pos hia]
          show some (if (ia == some k) = true
              then (⟨nm, none, attrs⟩ : ClassDef) else ⟨nm, ia, attrs⟩) = _
          rw [if_pos hia]
        · rw [if_neg hia]
          show some (if (ia == some k) = true
              then (⟨nm, none, attrs⟩ : ClassDef) else ⟨nm, ia, attrs⟩) = _
          rw [if_neg hia]
      by_cases hia : (ia == some k) = true
      · rw [if_pos hia] at hdel
        exact ih _ nm none attrs hdel (Or.inl rfl)
      · rw [if_neg hia] at hdel
        apply ih _ nm ia attrs hdel
        rcases hx with rfl | ⟨P, hP, hPm, hPne⟩
        · exact Or.inl rfl
        · refine Or.inr ⟨P, hP, ?_, hPne⟩
          rcases List.mem_cons.mp hPm with heq | hm
          · exfalso
            apply hia
            rw [hP, heq]
            exact beq_self_eq_true (some k)
          · exact hm

theorem clean_lookup (s : Schema) (cn nm : String) (ia : Option String)
    (attrs : List (String × SlotDef))
    (hl : lookup1 s.classes cn = some ⟨nm, ia, attrs⟩)
    (hx : ia = none ∨
      ∃ P, ia = some P ∧ P ∈ s.classes.map Prod.fst ∧ ¬ (P = cn)) :
    lookup1 (clean s [cn]).classes cn = some ⟨nm, none, attrs⟩ := by
  unfold clean
  show lookup1 ((s.classes.map (fun p => p.1)).foldl
      (fun s k => if [cn].contains k then s else deleteClass s k) s).classes
      cn = _
  exact cleanKeeps cn _ s nm ia attrs hl hx

theorem merged_facts (sv : Schema) (cn : String) (cdef : ClassDef)
    (ancsT : List String) (hNCA : NCA sv)
    (hcd : lookup1 sv.classes cn = some cdef)
    (hanc : classAncestors sv cn = Except.ok (cn :: ancsT))
    (hnd : (cdef.attributes.map Prod.fst).Nodup) :
    ((inducedSlots sv cn).foldl (fun as s => setOrAppend as s.name s)
        cdef.attributes).map Prod.fst = inducedNames sv (cn :: ancsT) ∧
    (inducedNames sv (cn :: ancsT)).Nodup ∧
    (∀ n ∈ inducedNames sv (cn :: ancsT),
      lookup1 ((inducedSlots sv cn).foldl
          (fun as s => setOrAppend as s.name s) cdef.attributes) n
        = inducedDef sv (cn :: ancsT) n) := by
  have hindS : inducedSlots sv cn
      = (inducedNames sv (cn :: ancsT)).filterMap
          (inducedDef sv (cn :: ancsT)) := by
    unfold inducedSlots
    simp only [hanc]
  have htot : ∀ n ∈ inducedNames sv (cn :: ancsT),
      ∃ sd, inducedDef sv (cn :: ancsT) n = some sd ∧ sd.name = n := by
    intro n hn
    have h1 := inducedDef_isSome sv _ n hn
    cases hd : inducedDef sv (cn :: ancsT) n with
    | none => rw [hd] at h1; simp at h1
    | some sd => exact ⟨sd, rfl, inducedDef_name sv hNCA _ n sd hd⟩
  have hnames : (inducedSlots sv cn).map SlotDef.name
      = inducedNames sv (cn :: ancsT) := by
    rw [hindS]
    exact filterMap_names _ _ htot
  obtain ⟨ext, hdec, hextnd, hdis⟩ :=
    inducedNames_decomp sv cn cdef ancsT hcd hnd
  have hINnd : (inducedNames sv (cn :: ancsT)).Nodup := by
    rw [hdec]
    exact List.Nodup.append hnd hextnd (fun x hx1 hx2 => hdis x hx2 hx1)
  have hSnd : ((inducedSlots sv cn).map SlotDef.name).Nodup := by
    rw [hnames]; exact hINnd
  refine ⟨?_, hINnd, ?_⟩
  · rw [foldl_setOrAppend_keys _ _ hSnd, hnames, hdec, List.filter_append]
    have hf1 : (cdef.attributes.map Prod.fst).filter
        (fun n => !(hasKey cdef.attributes n)) = [] := by
      have hc1 : ∀ n ∈ cdef.attributes.map Prod.fst,
          (!(hasKey cdef.attributes n)) = (fun _ : String => false) n := by
        intro n hn
        rw [(hasKey_iff_keys_mem _ _).mpr hn]
        rfl
      rw [List.filter_congr hc1]
      simp
    have hf2 : ext.filter (fun n => !(hasKey cdef.attributes n)) = ext := by
      have hc2 : ∀ n ∈ ext,
          (!(hasKey cdef.attributes n)) = (fun _ : String => true) n := by
        intro n hn
        have hK : hasKey cdef.attributes n = false := by
          cases hK2 : hasKey cdef.attributes n
          · rfl
          · exact absurd ((hasKey_iff_keys_mem _ _).mp hK2) (hdis n hn)
        rw [hK]
        rfl
      rw [List.filter_congr hc2]
      simp
    rw [hf1, hf2, List.nil_append, ← hdec]
  · intro n hn
    obtain ⟨sd, hsd, hname⟩ := htot n hn
    rw [hsd]
    have hmem : sd ∈ inducedSlots sv cn := by
      rw [hindS]
      exact List.mem_filterMap.mpr ⟨n, hn, hsd⟩
    have hfin := foldl_setOrAppend_mem (inducedSlots sv cn)
      cdef.attributes hSnd sd hmem
    rw [hname] at hfin
    exact hfin

/-- **C4** (confirmed): flattening a class into a data product clears its
parent reference and produces exactly the induced (inherited plus local)
attribute set of the class, with every attribute whose range class has an
identifier slot rewritten to that identifier slot's range and every other
attribute left unchanged.  For a well-formed input (attribute entries are
keyed by their slot names and duplicate free, the parent reference names a
genuine other class, and no induced attribute range has the flattened
class among its ancestors), `dataProductRun` succeeds and the output
class satisfies `is_a = none`, its attribute keys are the induced
attribute names, and each attribute equals the induced declaration
rewritten by the identifier-slot contract `dpRewriteSpec`. -/
theorem c4_flatten (sv : Schema) (cn : String) (cdef : ClassDef)
    (ancsT : List String)
    (hNCA : NCA sv)
    (hcd : lookup1 sv.classes cn = some cdef)
    (hanc : classAncestors sv cn = Except.ok (cn :: ancsT))
    (hnd : (cdef.attributes.map Prod.fst).Nodup)
    (hpar : dpParentOk sv cn cdef = true)
    (hav : ∀ n ∈ inducedNames sv (cn :: ancsT),
      dpAcyclicAt sv cn (cn :: ancsT) n = true) :
    ∃ out c', dataProductRun sv cn = Except.ok out ∧
      lookup1 out.classes cn = some c' ∧
      c'.is_a = none ∧
      c'.attributes.map Prod.fst = inducedNames sv (cn :: ancsT) ∧
      ∀ n ∈ inducedNames sv (cn :: ancsT),
        lookup1 c'.attributes n
          = (inducedDef sv (cn :: ancsT) n).map (dpRewriteSpec sv) := by
  obtain ⟨hmk, hINnd, hmlk⟩ := merged_facts sv cn cdef ancsT hNCA hcd hanc hnd
  have hmk2 : ((inducedSlots sv cn).foldl (fun as s => setOrAppend as s.name s)
      cdef.attributes).map (fun p => p.1) = inducedNames sv (cn :: ancsT) := hmk
  have hpostnd : (((inducedSlots sv cn).foldl
      (fun as s => setOrAppend as s.name s) cdef.attributes).map
        (fun p => p.1)).Nodup := by
    rw [hmk2]; exact hINnd
  have hgoav : ∀ n ∈ ((inducedSlots sv cn).foldl
      (fun as s => setOrAppend as s.name s) cdef.attributes).map (fun p => p.1),
      ∀ sd r l, lookup1 ((inducedSlots sv cn).foldl
        (fun as s => setOrAppend as s.name s) cdef.attributes) n = some sd →
      sd.range = some r → classAncestors sv r = Except.ok l → ¬ cn ∈ l := by
    intro n hn sd r l h1 h2 h3
    have hn2 : n ∈ inducedNames sv (cn :: ancsT) := by rw [← hmk2]; exact hn
    have h1b : inducedDef sv (cn :: ancsT) n = some sd := by
      rw [← hmlk n hn2]; exact h1
    have hava := hav n hn2
    unfold dpAcyclicAt at hava
    simp only [h1b, h2, h3] at hava
    intro hc
    have hcont : l.contains cn = true := List.elem_iff.mpr hc
    rw [hcont] at hava
    exact absurd hava (by simp)
  obtain ⟨aF, hgo, hkeysF, hrwF, _⟩ :=
    dpGo_spec sv cn cdef hcd _ _ hpostnd hgoav
  have hT : dataProductTransform sv cn
      = sv.setClassDef cn (⟨cdef.name, cdef.is_a, aF⟩ : ClassDef) := by
    unfold dataProductTransform
    simp only [hcd]
    exact hgo
  have hsT : lookup1 (dataProductTransform sv cn).classes cn
      = some ⟨cdef.name, cdef.is_a, aF⟩ := by
    rw [hT]
    exact lookup1_setVal_self _ _ _ (by rw [hcd]; rfl)
  have hTkeys : (dataProductTransform sv cn).classes.map Prod.fst
      = sv.classes.map Prod.fst := by
    rw [hT]
    exact setVal_keys _ _ _
  have hparOK : cdef.is_a = none ∨ ∃ P, cdef.is_a = some P ∧
      P ∈ (dataProductTransform sv cn).classes.map Prod.fst ∧ ¬ (P = cn) := by
    unfold dpParentOk at hpar
    cases hia : cdef.is_a with
    | none => exact Or.inl rfl
    | some P =>
      simp only [hia] at hpar
      rw [Bool.and_eq_true] at hpar
      refine Or.inr ⟨P, rfl, ?_, ?_⟩
      · rw [hTkeys]
        exact List.elem_iff.mp hpar.2
      · intro hc
        have h1 := hpar.1
        rw [hc] at h1
        simp at h1
  have hout : lookup1 (clean (dataProductTransform sv cn) [cn]).classes cn
      = some ⟨cdef.name, none, aF⟩ :=
    clean_lookup _ cn _ _ _ hsT hparOK
  refine ⟨clean (dataProductTransform sv cn) [cn], ⟨cdef.name, none, aF⟩,
    ?_, hout, rfl, ?_, ?_⟩
  · unfold dataProductRun
    simp only [hanc]
  · show aF.map Prod.fst = _
    rw [hkeysF]
    exact hmk
  · intro n hn
    show lookup1 aF n = _
    have hn2 : n ∈ ((inducedSlots sv cn).foldl
        (fun as s => setOrAppend as s.name s) cdef.attributes).map
          (fun p => p.1) := by
      rw [hmk2]; exact hn
    rw [hrwF n hn2, hmlk n hn]

/-- Witness for C4: flattening `Dog` (child of `Animal`, with a reference
to identifier-bearing `R` and to identifier-free `Q`) in `dpSchema`. -/
theorem c4_flatten_witness :
    NCA dpSchema ∧
    lookup1 dpSchema.classes "Dog" = some (⟨"Dog", some "Animal",
      [("breed", ⟨"breed", some "string", false, false, false, false, none⟩),
       ("owner", ⟨"owner", some "R", false, false, false, false, none⟩),
       ("toy", ⟨"toy", some "Q", false, false, false, false, none⟩)]⟩
        : ClassDef) ∧
    classAncestors dpSchema "Dog" = Except.ok ["Dog", "Animal"] ∧
    (∃ out c', dataProductRun dpSchema "Dog" = Except.ok out ∧
      lookup1 out.classes "Dog" = some c' ∧
      c'.is_a = none ∧
      c'.attributes.map Prod.fst = inducedNames dpSchema ["Dog", "Animal"] ∧
      ∀ n ∈ inducedNames dpSchema ["Dog", "Animal"],
        lookup1 c'.attributes n
          = (inducedDef dpSchema ["Dog", "Animal"] n).map
              (dpRewriteSpec dpSchema)) :=
  ⟨by decide, rfl, rfl,
    c4_flatten dpSchema "Dog" (⟨"Dog", some "Animal",
      [("breed", ⟨"breed", some "string", false, false, false, false, none⟩),
       ("owner", ⟨"owner", some "R", false, false, false, false, none⟩),
       ("toy", ⟨"toy", some "Q", false, false, false, false, none⟩)]⟩
        : ClassDef) ["Animal"]
      (by decide) rfl rfl (by decide) (by decide) (by decide)⟩

end GLP
